import Mathlib

/-!
Verification development for the risk-radar core: a shallow embedding of
the entity-resolution and propensity-scoring components
(`backend/entity_resolution.py`, `backend/scoring/propensity.py`,
`backend/models.py`), together with theorems settling the specification
claims about them.

Conventions of the embedding:
* Python strings are `String` / `List Char`; ASCII is assumed for the
  character classes (`\w`, `\s`, upper/lower case), matching the data the
  system handles.
* Python floats are `ℚ` except where `math.exp` forces `ℝ`
  (the recency component and the aggregate score).
* `datetime` values are modelled at day granularity as `ℤ` (days since an
  arbitrary epoch); `datetime.now()` becomes an explicit `now : ℤ`
  argument.
* The SQL store is a record of lists; queries become list folds in
  insertion order, `ORDER BY ... DESC` becomes a stable insertion sort.
* External library functions (rapidfuzz `fuzz.ratio`, Python `float` and
  `datetime.fromisoformat` parsing) are modelled by their documented
  behaviour: `fuzz.ratio` is the normalized InDel similarity, and the two
  parsers are passed in as abstract `String → Option _` functions.
-/

namespace RiskRadar

/-! ### Character classes (Python `\w`, `\s`, ASCII case folding) -/

/-- Python regex `\w` (ASCII): letters, digits, underscore. -/
def wordChar (c : Char) : Bool :=
  c.isAlphanum || c == '_'

/-- Python regex `\s` / `str.split()` whitespace. -/
def wsChar (c : Char) : Bool :=
  c.isWhitespace

/-- Characters kept by `re.sub(r'[^\w\s\-]', '', name)`. -/
def keepChar (c : Char) : Bool :=
  wordChar c || wsChar c || c == '-'

/-! ### `EntityResolver.normalize_company_name` -/

/-- Python `str.strip()`: drop leading and trailing whitespace. -/
def trimWs (l : List Char) : List Char :=
  ((l.dropWhile wsChar).reverse.dropWhile wsChar).reverse

/-- Match of the regex `\bW\b` at the head of `l` for a single word `W`
consisting of word characters: `W` is a non-empty literal prefix of `l`
and the character after it (if any) is not a word character.  The word
boundary before the match is handled by the scanner (`stripAlts`). -/
def matchWord (w l : List Char) : Bool :=
  !w.isEmpty && w.isPrefixOf l &&
    (match l.drop w.length with
     | [] => true
     | c :: _ => !wordChar c)

/-- Lower bound on the length of a word accepted by `matchWord`. -/
theorem matchWord_length {w l : List Char} (h : matchWord w l = true) :
    1 ≤ w.length ∧ w.length ≤ l.length := by
  simp only [matchWord, Bool.and_eq_true, Bool.not_eq_true'] at h
  obtain ⟨⟨hne, hpre⟩, -⟩ := h
  constructor
  · cases w with
    | nil => simp at hne
    | cons a b => simp
  · exact (List.isPrefixOf_iff_prefix.mp hpre).length_le

/-- The scanner implementing one
`re.sub(r'\b(W1|W2|...)\b\.?', '', name)` pass, written with an explicit
skip counter so the recursion is structural (and therefore reducible by
the kernel): while `skip > 0` the character belongs to a deleted match;
at `skip = 0` a match may start only when the preceding character was
not a word character (`prev = false`); on a match the word and one
optional following period are deleted and scanning resumes after them,
exactly like `re.sub`'s non-overlapping replacement. -/
def stripAltsAux (alts : List (List Char)) : ℕ → Bool → List Char → List Char
  | _, _, [] => []
  | skip+1, prev, _ :: t => stripAltsAux alts skip prev t
  | 0, prev, c :: t =>
    if prev then c :: stripAltsAux alts 0 (wordChar c) t
    else
      match alts.find? (fun w => matchWord w (c :: t)) with
      | some w =>
        if ((c :: t).drop w.length).head? = some '.' then
          stripAltsAux alts w.length false t
        else
          stripAltsAux alts (w.length - 1) true t
      | none => c :: stripAltsAux alts 0 (wordChar c) t

/-- One `re.sub(r'\b(W1|W2|...)\b\.?', '', name)` pass: scan left to
right; at each position whose preceding character is not a word character
(`prev = false`), try the alternatives in order; on a match delete the
word together with one optional following period and continue after the
match.  After a deleted match `prev` is `true` (the last character of
the word is a word character) unless the optional period was consumed. -/
def stripAlts (alts : List (List Char)) (prev : Bool) (l : List Char) : List Char :=
  stripAltsAux alts 0 prev l

theorem stripAltsAux_skip (alts : List (List Char)) :
    ∀ (t : List Char) (k : ℕ) (prev : Bool),
      stripAltsAux alts k prev t = stripAltsAux alts 0 prev (t.drop k) := by
  intro t
  induction t with
  | nil => intro k prev; cases k <;> rfl
  | cons c t' ih =>
    intro k prev
    cases k with
    | zero => rfl
    | succ k' =>
      show stripAltsAux alts k' prev t' = _
      rw [ih k' prev, List.drop_succ_cons]

/-- Whether the regex `\bW\b` matches anywhere in the string, scanning
with the same word-boundary state as `stripAlts`: `prev` records whether
the previous character was a word character. -/
def hasWordOcc (w : List Char) : Bool → List Char → Bool
  | _, [] => false
  | prev, c :: t => (!prev && matchWord w (c :: t)) || hasWordOcc w (wordChar c) t

/-- The ten suffix patterns, in source order. -/
def suffixAlts : List (List (List Char)) :=
  [ ["INC".toList, "INCORPORATED".toList],
    ["LLC".toList],
    ["CORP".toList],
    ["CORPORATION".toList],
    ["CO".toList],
    ["LTD".toList],
    ["LIMITED".toList],
    ["LP".toList],
    ["LLP".toList],
    ["PLC".toList] ]

/-- All ten suffix-removal passes, applied in order. -/
def stripSuffixes (l : List Char) : List Char :=
  suffixAlts.foldl (fun s alts => stripAlts alts false s) l

/-- Fuelled form of `str.split()`; the fuel only needs to dominate the
length of the list, and exists to keep the recursion structural. -/
def wsWordsF : ℕ → List Char → List (List Char)
  | 0, _ => []
  | fuel+1, l =>
    match l.dropWhile wsChar with
    | [] => []
    | c :: t =>
      (c :: t.takeWhile (fun x => !wsChar x)) ::
        wsWordsF fuel (t.dropWhile (fun x => !wsChar x))

/-- Python `str.split()`: the maximal whitespace-free runs. -/
def wsWords (l : List Char) : List (List Char) :=
  wsWordsF l.length l

theorem wsWordsF_nil : ∀ n, wsWordsF n [] = [] := by
  intro n
  cases n <;> rfl

theorem wsWordsF_fuel :
    ∀ (n : ℕ) (l : List Char) (m : ℕ), l.length ≤ n → l.length ≤ m →
      wsWordsF n l = wsWordsF m l := by
  intro n
  induction n with
  | zero =>
    intro l m hn _
    have : l = [] := by
      cases l with
      | nil => rfl
      | cons a b => simp at hn
    subst this
    rw [wsWordsF_nil, wsWordsF_nil]
  | succ n ih =>
    intro l m hn hm
    cases l with
    | nil => rw [wsWordsF_nil, wsWordsF_nil]
    | cons a b =>
      obtain ⟨m', rfl⟩ : ∃ m', m = m' + 1 := by
        cases m with
        | zero => simp at hm
        | succ m' => exact ⟨m', rfl⟩
      show (match (a :: b).dropWhile wsChar with
        | [] => []
        | c :: t => (c :: t.takeWhile (fun x => !wsChar x)) ::
            wsWordsF n (t.dropWhile (fun x => !wsChar x))) =
        (match (a :: b).dropWhile wsChar with
        | [] => []
        | c :: t => (c :: t.takeWhile (fun x => !wsChar x)) ::
            wsWordsF m' (t.dropWhile (fun x => !wsChar x)))
      cases hdw : (a :: b).dropWhile wsChar with
      | nil => rfl
      | cons c t =>
        have hct : t.length + 1 ≤ b.length + 1 := by
          have hs := (List.dropWhile_sublist (l := a :: b) wsChar).length_le
          rw [hdw] at hs
          simpa using hs
        have hlen : (t.dropWhile (fun x => !wsChar x)).length ≤ t.length :=
          (List.dropWhile_sublist _).length_le
        simp only [List.length_cons] at hn hm
        show (c :: List.takeWhile (fun x => !wsChar x) t) ::
            wsWordsF n (List.dropWhile (fun x => !wsChar x) t) =
          (c :: List.takeWhile (fun x => !wsChar x) t) ::
            wsWordsF m' (List.dropWhile (fun x => !wsChar x) t)
        rw [ih (t.dropWhile (fun x => !wsChar x)) m' (by omega) (by omega)]

/-- Python `' '.join(name.split())`: collapse whitespace runs to single
spaces and drop edge whitespace. -/
def collapseWs (l : List Char) : List Char :=
  List.intercalate [' '] (wsWords l)

/-- `EntityResolver.normalize_company_name`, on character lists:
strip, uppercase, remove the business suffixes, remove the characters
outside `[\w\s\-]`, normalize whitespace, strip. -/
def normChars (l : List Char) : List Char :=
  trimWs (collapseWs ((stripSuffixes ((trimWs l).map Char.toUpper)).filter keepChar))

/-- `EntityResolver.normalize_company_name`.  Returns `""` immediately on
the falsy input `""`. -/
def normalizeCompanyName (s : String) : String :=
  if s = "" then "" else ⟨normChars s.toList⟩

/-! ### rapidfuzz `fuzz.ratio`

`fuzz.ratio` is the normalized InDel similarity scaled to 0–100:
`100 * (1 - dist / (len1 + len2))` where `dist` is the Levenshtein
distance without substitutions, i.e. `len1 + len2 - 2 * lcs`.  Two empty
strings score 100. -/

/-- Fuelled longest-common-subsequence length; the fuel only needs to
dominate the sum of the lengths and keeps the recursion structural. -/
def lcsF : ℕ → List Char → List Char → ℕ
  | 0, _, _ => 0
  | fuel+1, l₁, l₂ =>
    match l₁, l₂ with
    | [], _ => 0
    | _ :: _, [] => 0
    | a :: as, b :: bs =>
      if a == b then lcsF fuel as bs + 1
      else max (lcsF fuel (a :: as) bs) (lcsF fuel as (b :: bs))

/-- Length of a longest common subsequence. -/
def lcs (l₁ l₂ : List Char) : ℕ :=
  lcsF (l₁.length + l₂.length) l₁ l₂

/-- Model of rapidfuzz `fuzz.ratio` (normalized InDel similarity,
0–100). -/
def fuzzRatio (a b : String) : ℚ :=
  if a.toList.length + b.toList.length = 0 then 100
  else (200 * lcs a.toList b.toList : ℚ) / (a.toList.length + b.toList.length)

/-! ### Data model (`backend/models.py`) -/

/-- `models.CompanyType`. -/
inductive CompanyType where
  | GC | OWNER | SUB | UNKNOWN
deriving DecidableEq, Repr

/-- `models.Company` (the fields this core reads). -/
structure CompanyR where
  id : ℕ
  name : String
  ctype : CompanyType
  naics : Option String := none
  normalizedName : String
deriving DecidableEq, Repr

/-- `models.CompanyAlias`. -/
structure AliasR where
  companyId : ℕ
  aliasText : String
  confidence : ℚ
deriving DecidableEq, Repr

/-- `models.Project` (dates at day granularity). -/
structure ProjectR where
  id : ℕ
  name : String
  location : Option String := none
  gcId : Option ℕ := none
  ownerId : Option ℕ := none
  startDate : Option ℤ := none
  endDate : Option ℤ := none
deriving DecidableEq, Repr

/-- `models.SubRelationship`. -/
structure RelR where
  gcId : Option ℕ := none
  ownerId : Option ℕ := none
  subId : ℕ
  projectId : Option ℕ := none
  trade : Option String := none
  poValue : Option ℚ := none
  startDate : Option ℤ := none
  endDate : Option ℤ := none
deriving DecidableEq, Repr

/-- The open attribute bag `models.Event.data`, restricted to the keys the
scorer reads.  Absent keys are `none` / `false` / `[]` (Python
`data.get`). -/
structure EventData where
  fatality : Bool := false
  catastrophe : Bool := false
  severityType : Option String := none
  penalty : Option ℚ := none
  violations : Option ℕ := none
  narrative : Option String := none
  keywords : List String := []
  title : Option String := none
  summary : Option String := none
deriving DecidableEq, Repr

/-- `models.Event`. -/
structure EventR where
  id : ℕ
  eventType : String
  companyId : ℕ
  occurredOn : ℤ
  severityScore : ℚ
  data : EventData := {}
deriving DecidableEq, Repr

/-- `models.MetricsITA` (the fields the scorer reads). -/
structure MetricsR where
  subId : ℕ
  year : ℤ
  dartRate : Option ℚ := none
deriving DecidableEq, Repr

/-- `models.TargetOpportunity`.  The score is an `ℝ` because the scorer's
recency component involves `exp`. -/
structure OppR where
  gcId : Option ℕ := none
  ownerId : Option ℕ := none
  driverEventId : ℕ
  propensityScore : ℝ
  confidence : ℝ := 0
  recommendedTalkTrack : String := ""

/-- The transactional store consulted by the resolver and the scorer, as
lists in insertion order.  `nextCompanyId` / `nextProjectId` model the
autoincrement primary keys. -/
structure Store where
  companies : List CompanyR := []
  aliases : List AliasR := []
  projects : List ProjectR := []
  relationships : List RelR := []
  events : List EventR := []
  metrics : List MetricsR := []
  opportunities : List OppR := []
  nextCompanyId : ℕ := 1
  nextProjectId : ℕ := 1

/-! ### `EntityResolver.find_similar_companies` / `resolve_company` /
`add_company_alias` -/

/-- The aliases of a company (`company.aliases`). -/
def aliasesOf (st : Store) (cid : ℕ) : List AliasR :=
  st.aliases.filter (fun a => a.companyId == cid)

/-- The `(company, score)` pairs accumulated by the loop in
`find_similar_companies`, before deduplication and sorting: for every
company, its normalized name if that scores at or above the fuzzy
threshold, then every alias (re-normalized) that does. -/
def fuzzyCandidates (threshold : ℚ) (st : Store) (companyName : String) :
    List (CompanyR × ℚ) :=
  st.companies.flatMap (fun c =>
    (if threshold ≤ fuzzRatio (normalizeCompanyName companyName) c.normalizedName
     then [(c, fuzzRatio (normalizeCompanyName companyName) c.normalizedName)] else []) ++
    (aliasesOf st c.id).flatMap (fun al =>
      if threshold ≤ fuzzRatio (normalizeCompanyName companyName)
          (normalizeCompanyName al.aliasText)
      then [(c, fuzzRatio (normalizeCompanyName companyName)
             (normalizeCompanyName al.aliasText))] else []))

/-- Descending-score order used by `sorted(..., key=lambda x: x[1],
reverse=True)`. -/
def byScoreDesc (p q : CompanyR × ℚ) : Prop :=
  q.2 ≤ p.2

instance : DecidableRel byScoreDesc := fun p q => by
  unfold byScoreDesc; infer_instance

instance : IsTotal (CompanyR × ℚ) byScoreDesc :=
  ⟨fun p q => le_total q.2 p.2⟩

instance : IsTrans (CompanyR × ℚ) byScoreDesc :=
  ⟨fun _ _ _ h1 h2 => le_trans h2 h1⟩

/-- `EntityResolver.find_similar_companies`: collect candidates, apply
`sorted(set(matches), ...)` — which removes duplicate `(company, score)`
pairs, not duplicate companies — and truncate to `limit`. -/
def findSimilarCompanies (threshold : ℚ) (st : Store) (companyName : String)
    (limit : ℕ) : List (CompanyR × ℚ) :=
  (((fuzzyCandidates threshold st companyName).dedup).insertionSort byScoreDesc).take limit

/-- `EntityResolver.resolve_company`: falsy name → `None`; exact
normalized-name lookup; else best fuzzy candidate if its score is at
least 95. -/
def resolveCompany (threshold : ℚ) (st : Store) (companyName : String) :
    Option CompanyR :=
  if companyName = "" then none
  else
    match st.companies.find?
        (fun c => c.normalizedName == normalizeCompanyName companyName) with
    | some c => some c
    | none =>
      match findSimilarCompanies threshold st companyName 1 with
      | (c, s) :: _ => if 95 ≤ s then some c else none
      | [] => none

/-- `EntityResolver.add_company_alias`: normalize; no-op when an alias
with the same normalized text already exists for the company. -/
def addCompanyAlias (st : Store) (companyId : ℕ) (al : String)
    (confidence : ℚ) : Store :=
  let na := normalizeCompanyName al
  if st.aliases.any (fun a => a.companyId == companyId && a.aliasText == na) then st
  else { st with aliases := st.aliases ++ [⟨companyId, na, confidence⟩] }

/-! ### Bulk CSV import (`process_csv_mappings` helpers)

Python's `float(..)` and `datetime.fromisoformat(..)` are external
parsers; they are modelled as abstract functions returning `none` exactly
when the Python call would raise `ValueError`.  A raised exception inside
a row's `try` block becomes an `Except.error` carrying the row-level
message; mutations made before the raise are kept, as the session is only
committed or rolled back per batch, never per row. -/

/-- The two external parsers used by the relationship importer. -/
structure CsvParse where
  parseFloat : String → Option ℚ
  parseDate : String → Option ℤ

/-- Python truthiness of an optional CSV cell: missing column (`None`)
and empty string are falsy. -/
def truthy (o : Option String) : Bool :=
  !(o.getD "" == "")

/-- A row of the `sub_relationships` CSV (`row.get(..)` of each column). -/
structure RelRow where
  gcName : Option String := none
  ownerName : Option String := none
  subName : Option String := none
  projectName : Option String := none
  location : Option String := none
  trade : Option String := none
  poValue : Option String := none
  startDate : Option String := none
  endDate : Option String := none
deriving Repr

/-- A row of the `company_aliases` CSV. -/
structure AliasRow where
  canonicalName : Option String := none
  aliasName : Option String := none
deriving Repr

/-- Per-batch counters returned by the importers. -/
structure CsvResults where
  processed : ℕ := 0
  created : ℕ := 0
  errors : List String := []
deriving Repr, DecidableEq

/-- `CompanyType(company_type)` guarded by
`hasattr(CompanyType, company_type.upper())`; the importers only pass
`"Unknown"`, `"Owner"` and `"Sub"`. -/
def parseCompanyType (s : String) : CompanyType :=
  if s == "GC" then .GC
  else if s == "Owner" then .OWNER
  else if s == "Sub" then .SUB
  else .UNKNOWN

/-- `EntityResolver._find_or_create_company_from_csv`: falsy name →
`None`; otherwise resolve, creating a new canonical company on
`NotFound`. -/
def findOrCreateCompanyFromCsv (threshold : ℚ) (st : Store)
    (companyName : Option String) (companyType : String) :
    Store × Option CompanyR :=
  if truthy companyName then
    let n := companyName.getD ""
    match resolveCompany threshold st n with
    | some c => (st, some c)
    | none =>
      let c : CompanyR :=
        { id := st.nextCompanyId, name := n, ctype := parseCompanyType companyType,
          naics := none, normalizedName := normalizeCompanyName n }
      ({ st with companies := st.companies ++ [c],
                 nextCompanyId := st.nextCompanyId + 1 }, some c)
  else (st, none)

/-- `datetime.fromisoformat(row.get(k)) if row.get(k) else None`: falsy
cell → `None`; unparseable cell → `ValueError`. -/
def parseOptDate (P : CsvParse) (o : Option String) : Except String (Option ℤ) :=
  if truthy o then
    match P.parseDate (o.getD "") with
    | some d => .ok (some d)
    | none => .error "Invalid isoformat string"
  else .ok none

/-- `float(row.get("po_value", 0)) if row.get("po_value") else None`. -/
def parseOptFloat (P : CsvParse) (o : Option String) : Except String (Option ℚ) :=
  if truthy o then
    match P.parseFloat (o.getD "") with
    | some v => .ok (some v)
    | none => .error "could not convert string to float"
  else .ok none

/-- `EntityResolver._find_or_create_project_from_csv`: exact name lookup,
create with the row's location, GC/owner ids and parsed date range when
absent.  The date parses happen while the `Project` constructor's
arguments are evaluated, so a bad date raises before anything is added. -/
def findOrCreateProjectFromCsv (P : CsvParse) (st : Store) (row : RelRow)
    (gc owner : Option CompanyR) : Store × Except String ProjectR :=
  let pname := row.projectName.getD ""
  match st.projects.find? (fun p => p.name == pname) with
  | some p => (st, .ok p)
  | none =>
    match parseOptDate P row.startDate with
    | .error e => (st, .error e)
    | .ok sd =>
      match parseOptDate P row.endDate with
      | .error e => (st, .error e)
      | .ok ed =>
        let p : ProjectR :=
          { id := st.nextProjectId, name := pname, location := row.location,
            gcId := gc.map (·.id), ownerId := owner.map (·.id),
            startDate := sd, endDate := ed }
        ({ st with projects := st.projects ++ [p],
                   nextProjectId := st.nextProjectId + 1 }, .ok p)

/-- The body of one iteration of `_process_sub_relationships_csv`'s row
loop: resolve-or-create the three companies, then the project, then
build the relationship.  The `SubRelationship` constructor evaluates
`sub.id` (an `AttributeError` when the sub is missing) before parsing
`po_value` and the dates.  Returns the mutated store and the row error,
if any. -/
def processSubRelRow (P : CsvParse) (threshold : ℚ) (st0 : Store)
    (row : RelRow) : Store × Option String :=
  let r1 := findOrCreateCompanyFromCsv threshold st0 row.gcName "Unknown"
  let r2 := findOrCreateCompanyFromCsv threshold r1.1 row.ownerName "Owner"
  let r3 := findOrCreateCompanyFromCsv threshold r2.1 row.subName "Sub"
  let st3 := r3.1
  let stepProject : Store × Except String (Option ProjectR) :=
    if truthy row.projectName then
      match findOrCreateProjectFromCsv P st3 row r1.2 r2.2 with
      | (st4, .ok p) => (st4, .ok (some p))
      | (st4, .error e) => (st4, .error e)
    else (st3, .ok none)
  match stepProject with
  | (st4, .error e) => (st4, some ("Row error: " ++ e))
  | (st4, .ok proj) =>
    match r3.2 with
    | none => (st4, some "Row error: 'NoneType' object has no attribute 'id'")
    | some sub =>
      match parseOptFloat P row.poValue with
      | .error e => (st4, some ("Row error: " ++ e))
      | .ok po =>
        match parseOptDate P row.startDate with
        | .error e => (st4, some ("Row error: " ++ e))
        | .ok sd =>
          match parseOptDate P row.endDate with
          | .error e => (st4, some ("Row error: " ++ e))
          | .ok ed =>
            let rel : RelR :=
              { gcId := r1.2.map (·.id), ownerId := r2.2.map (·.id),
                subId := sub.id, projectId := proj.map (·.id),
                trade := row.trade, poValue := po,
                startDate := sd, endDate := ed }
            ({ st4 with relationships := st4.relationships ++ [rel] }, none)

/-- One fold step of `_process_sub_relationships_csv`'s row loop:
success bumps `created` and `processed`, an exception appends its
row-level message. -/
def relCsvStep (P : CsvParse) (threshold : ℚ) (acc : Store × CsvResults)
    (row : RelRow) : Store × CsvResults :=
  match processSubRelRow P threshold acc.1 row with
  | (st', none) =>
    (st', { acc.2 with created := acc.2.created + 1,
                       processed := acc.2.processed + 1 })
  | (st', some e) =>
    (st', { acc.2 with errors := acc.2.errors ++ [e] })

/-- `EntityResolver._process_sub_relationships_csv`: best-effort per row;
a row error is appended and processing continues. -/
def processSubRelationshipsCsv (P : CsvParse) (threshold : ℚ) (st : Store)
    (rows : List RelRow) : Store × CsvResults :=
  rows.foldl (relCsvStep P threshold) (st, {})

/-- The body of one iteration of `_process_company_aliases_csv`'s row
loop.  A row with a falsy canonical name or alias is skipped by
`continue` — no error is recorded and no counter moves.  Returns the
mutated store and whether the row was counted. -/
def processAliasRow (threshold : ℚ) (st : Store) (row : AliasRow) :
    Store × Bool :=
  if truthy row.canonicalName && truthy row.aliasName then
    let canonical := row.canonicalName.getD ""
    let r :=
      match resolveCompany threshold st canonical with
      | some c => (st, c)
      | none =>
        let c : CompanyR :=
          { id := st.nextCompanyId, name := canonical, ctype := .UNKNOWN,
            naics := none, normalizedName := normalizeCompanyName canonical }
        ({ st with companies := st.companies ++ [c],
                   nextCompanyId := st.nextCompanyId + 1 }, c)
    (addCompanyAlias r.1 r.2.id (row.aliasName.getD "") (9/10), true)
  else (st, false)

/-- One fold step of `_process_company_aliases_csv`'s row loop: a
counted row bumps `created` and `processed`; a skipped row changes
nothing. -/
def aliasCsvStep (threshold : ℚ) (acc : Store × CsvResults)
    (row : AliasRow) : Store × CsvResults :=
  match processAliasRow threshold acc.1 row with
  | (st', true) =>
    (st', { acc.2 with created := acc.2.created + 1,
                       processed := acc.2.processed + 1 })
  | (st', false) => (st', acc.2)

/-- `EntityResolver._process_company_aliases_csv`.  Nothing in the loop
body can raise, so the per-row `except` branch is dead and the error
list stays empty. -/
def processCompanyAliasesCsv (threshold : ℚ) (st : Store)
    (rows : List AliasRow) : Store × CsvResults :=
  rows.foldl (aliasCsvStep threshold) (st, {})

/-! ### `PropensityScorer` (`backend/scoring/propensity.py`)

The scorer's configuration file `config/benchmarks.yaml` is absent, so
`_load_config` falls back to the hard-coded default dictionary; its
values (DART benchmark table, high-risk trade list, severity weights,
half-life 90 days) are inlined below.  Python floats become `ℚ`, except
the recency component and the aggregate, which use `ℝ` because of
`math.exp`. -/

/-- Python `str.lower()` (ASCII). -/
def lowerStr (s : String) : String :=
  ⟨s.toList.map Char.toLower⟩

/-- Python substring test `needle in hay`, on character lists. -/
def hasSub (hay needle : List Char) : Bool :=
  needle.isPrefixOf hay ||
    (match hay with
     | [] => false
     | _ :: t => hasSub t needle)

/-- Python substring test `needle in hay` on strings. -/
def containsStr (hay needle : String) : Bool :=
  hasSub hay.toList needle.toList

/-- The `dart_benchmarks` table of the default configuration. -/
def dartBenchmarks : List (String × ℚ) := [("default", 4)]

/-- `self.config["dart_benchmarks"].get(naics, 4.0)`. -/
def benchmarkFor (naics : Option String) : ℚ :=
  match naics with
  | none => 4
  | some k => (((dartBenchmarks.find? (fun p => p.1 == k))).map (·.2)).getD 4

/-- The `high_risk_trades` list of the default configuration. -/
def highRiskTrades : List String := ["steel erection", "roofing", "excavation"]

/-- `PropensityScorer._calculate_severity_score` with the default
configuration's `severity_weights` (`fatality` 50, `catastrophe` 35,
`serious_violation` 25; the other tiers use the in-code `.get`
defaults).  An if/elif chain: the first matching check alone decides. -/
def severityScoreData (d : EventData) : ℚ :=
  if d.fatality then 50
  else if d.catastrophe then 35
  else if d.severityType == some "Willful" then 20
  else if d.severityType == some "Serious" then 25
  else if 50000 < d.penalty.getD 0 then 20
  else if 5 ≤ d.violations.getD 0 then 15
  else 5

/-- `PropensityScorer._calculate_frequency_score`: count of the sub's
inspection/citation/accident events in the trailing 730 days. -/
def frequencyScore (st : Store) (now : ℤ) (e : EventR) : ℚ :=
  let cutoff := now - 730
  let cnt := (st.events.filter (fun ev =>
    ev.companyId == e.companyId && decide (cutoff ≤ ev.occurredOn) &&
      (ev.eventType == "inspection" || ev.eventType == "citation" ||
       ev.eventType == "accident"))).length
  if 5 ≤ cnt then 15
  else if 3 ≤ cnt then 10
  else if 2 ≤ cnt then 5
  else 0

/-- `ORDER BY year DESC` on ITA metrics. -/
def byYearDesc (m1 m2 : MetricsR) : Prop :=
  m2.year ≤ m1.year

instance : DecidableRel byYearDesc := fun m1 m2 => by
  unfold byYearDesc; infer_instance

instance : IsTotal MetricsR byYearDesc :=
  ⟨fun m1 m2 => le_total m2.year m1.year⟩

instance : IsTrans MetricsR byYearDesc :=
  ⟨fun _ _ _ h1 h2 => le_trans h2 h1⟩

/-- `PropensityScorer._calculate_ita_score`: most recent DART rate
against the NAICS benchmark.  A missing metric, a missing rate, and the
falsy rate `0.0` all yield 0. -/
def itaScore (st : Store) (e : EventR) : ℚ :=
  let ms := (st.metrics.filter (fun m => m.subId == e.companyId)).insertionSort byYearDesc
  match ms with
  | [] => 0
  | m :: _ =>
    match m.dartRate with
    | none => 0
    | some dr =>
      if dr == 0 then 0
      else
        let naics :=
          match st.companies.find? (fun c => c.id == e.companyId) with
          | some c => c.naics
          | none => none
        let ratio := dr / benchmarkFor naics
        if 2 ≤ ratio then 15
        else if 3/2 ≤ ratio then 10
        else if 6/5 ≤ ratio then 5
        else 0

/-- `PropensityScorer._calculate_trade_risk_score`: 5 when any of the
sub's relationships carries a high-risk trade (substring match,
case-insensitive); else 3 when the narrative/keyword text mentions one;
else 0. -/
def tradeRiskScore (st : Store) (e : EventR) : ℚ :=
  let rels := st.relationships.filter (fun r => r.subId == e.companyId)
  if rels.any (fun r =>
      match r.trade with
      | some tr =>
        !(tr == "") && highRiskTrades.any (fun h => containsStr (lowerStr tr) (lowerStr h))
      | none => false) then 5
  else
    let eventText :=
      lowerStr ((e.data.narrative.getD "") ++ " " ++ String.intercalate " " e.data.keywords)
    if highRiskTrades.any (fun h => containsStr eventText (lowerStr h)) then 3
    else 0

/-- `PropensityScorer._calculate_relationship_score`: relationships
linking the sub of the driver event to the target company.  `≥2` →
5; exactly one with project and both dates (`project_id` truthy) → 4;
one without → 2; none → 0. -/
def relationshipScore (st : Store) (company : CompanyR) (e : EventR) : ℚ :=
  let rels := st.relationships.filter (fun r =>
    r.subId == e.companyId &&
      (r.gcId == some company.id || r.ownerId == some company.id))
  if 2 ≤ rels.length then 5
  else
    match rels with
    | [r] =>
      if !(r.projectId.getD 0 == 0) && r.startDate.isSome && r.endDate.isSome then 4
      else 2
    | _ => 0

/-- The `negative_keywords` list of `_calculate_news_score`. -/
def negativeKeywords : List String :=
  ["lawsuit", "violation", "death", "fatality", "accident", "injury",
   "default", "delay", "penalty"]

/-- `PropensityScorer._calculate_news_score`: only news events; +2 per
keyword in the title, else +1 per keyword in the summary; capped at 5. -/
def newsScore (e : EventR) : ℚ :=
  if !(e.eventType == "news") then 0
  else
    let title := lowerStr (e.data.title.getD "")
    let summary := lowerStr (e.data.summary.getD "")
    let score := negativeKeywords.foldl
      (fun s kw =>
        if containsStr title kw then s + 2
        else if containsStr summary kw then s + 1
        else s) (0 : ℚ)
    min score 5

/-- `PropensityScorer._calculate_recency_score` at day granularity:
full 30 points up to 30 days, exponential decay with half-life 90 up to
`max_days = 90 * 2`, then 0. -/
noncomputable def recencyScore (now occurredOn : ℤ) : ℝ :=
  if now - occurredOn ≤ 30 then 30
  else if now - occurredOn ≤ 90 * 2 then
    30 * Real.exp (-((now - occurredOn : ℤ) : ℝ) / 90)
  else 0

/-- `PropensityScorer._get_severity_description` (the penalty bullet's
thousands-separator formatting is elided). -/
def severityDescription (d : EventData) : Option String :=
  if d.fatality then some "Fatality incident"
  else if d.catastrophe then some "Catastrophic incident"
  else if d.severityType == some "Willful" then some "Willful OSHA violation"
  else if 100000 < d.penalty.getD 0 then
    some ("High penalty ($" ++ toString (d.penalty.getD 0) ++ ")")
  else if 5 ≤ d.violations.getD 0 then
    some ("Multiple violations (" ++ toString (d.violations.getD 0) ++ ")")
  else none

/-- `PropensityScorer._determine_talk_track` with the default
configuration (no `talk_track_templates` entry, so the in-code labels
are used). -/
def determineTalkTrack (severity frequency ita : ℚ) : String :=
  if 20 < severity then "Post-incident stabilization"
  else if 10 < frequency then "Trend analysis & prevention"
  else if 10 < ita then "Portfolio risk benchmarking"
  else "Compliance gap assessment"

/-- `PropensityScorer.calculate_propensity_score`: the seven components,
the rationale bullets, the capped total and the talk track. -/
noncomputable def calculatePropensityScore (st : Store) (now : ℤ)
    (company : CompanyR) (e : EventR) : ℝ × List String × String :=
  let recency := recencyScore now e.occurredOn
  let severity := severityScoreData e.data
  let frequency := frequencyScore st now e
  let ita := itaScore st e
  let trade := tradeRiskScore st e
  let relationship := relationshipScore st company e
  let news := newsScore e
  let whyPoints :=
    (if 20 < recency
     then ["Recent incident (" ++ toString (now - e.occurredOn) ++ " days ago)"]
     else []) ++
    (match severityDescription e.data with
     | some d => ["High severity: " ++ d]
     | none => []) ++
    (if 5 < frequency then ["Multiple incidents in past 24 months"] else []) ++
    (if 8 < ita then ["Subcontractor DART rate above industry benchmark"] else []) ++
    (if 0 < trade then ["Involves high-risk trades"] else []) ++
    (if 2 < news then ["Negative media coverage"] else [])
  let total :=
    recency + ((severity + frequency + ita + trade + relationship + news : ℚ) : ℝ)
  (min total 100, whyPoints, determineTalkTrack severity frequency ita)

/-! ### `PropensityScorer.rebuild_opportunities` -/

/-- Counters returned by `rebuild_opportunities`. -/
structure RebuildResults where
  created : ℕ := 0
  updated : ℕ := 0
  errors : List String := []
deriving Repr, DecidableEq

/-- Mutate the first element satisfying `p` in place (the SQLAlchemy
`.first()` row object). -/
def updateFirst (p : α → Bool) (f : α → α) : List α → List α
  | [] => []
  | x :: t => if p x then f x :: t else x :: updateFirst p f t

/-- The upsert lookup filter: `TargetOpportunity.gc_id == company_id` when
the relationship references the company as GC, else
`TargetOpportunity.owner_id == company_id`, always conjoined with the
driver event id. -/
def oppMatches (r : RelR) (cid eid : ℕ) (o : OppR) : Bool :=
  (if r.gcId == some cid then o.gcId == some cid else o.ownerId == some cid) &&
    o.driverEventId == eid

/-- One iteration of `for company_id in [relationship.gc_id,
relationship.owner_id]`: skip missing ids and missing companies, score,
discard scores below 30, then update the existing opportunity in place
or insert a new one. -/
noncomputable def upsertTarget (now : ℤ) (e : EventR) (r : RelR)
    (acc : Store × RebuildResults) (cido : Option ℕ) : Store × RebuildResults :=
  match cido with
  | none => acc
  | some cid =>
    match acc.1.companies.find? (fun c => c.id == cid) with
    | none => acc
    | some comp =>
      let res := calculatePropensityScore acc.1 now comp e
      if 30 ≤ res.1 then
        if (acc.1.opportunities.find? (oppMatches r cid e.id)).isSome then
          ({ acc.1 with
              opportunities := updateFirst (oppMatches r cid e.id)
                (fun o => { o with propensityScore := res.1,
                                   recommendedTalkTrack := res.2.2 })
                acc.1.opportunities },
           { acc.2 with updated := acc.2.updated + 1 })
        else
          ({ acc.1 with
              opportunities := acc.1.opportunities ++
                [{ gcId := if r.gcId == some cid then some cid else none,
                   ownerId := if r.ownerId == some cid then some cid else none,
                   driverEventId := e.id, propensityScore := res.1,
                   confidence := 4/5, recommendedTalkTrack := res.2.2 }] },
           { acc.2 with created := acc.2.created + 1 })
      else acc

/-- One relationship of the driver event's sub: try the GC id, then the
owner id. -/
noncomputable def processRelationship (now : ℤ) (e : EventR)
    (acc : Store × RebuildResults) (r : RelR) : Store × RebuildResults :=
  [r.gcId, r.ownerId].foldl (upsertTarget now e r) acc

/-- One driver event: every relationship where its company is the sub. -/
noncomputable def processEvent (now : ℤ) (acc : Store × RebuildResults)
    (e : EventR) : Store × RebuildResults :=
  (acc.1.relationships.filter (fun r => r.subId == e.companyId)).foldl
    (processRelationship now e) acc

/-- `ORDER BY occurred_on DESC` on events. -/
def byOccurredDesc (e1 e2 : EventR) : Prop :=
  e2.occurredOn ≤ e1.occurredOn

instance : DecidableRel byOccurredDesc := fun e1 e2 => by
  unfold byOccurredDesc; infer_instance

instance : IsTotal EventR byOccurredDesc :=
  ⟨fun e1 e2 => le_total e2.occurredOn e1.occurredOn⟩

instance : IsTrans EventR byOccurredDesc :=
  ⟨fun _ _ _ h1 h2 => le_trans h2 h1⟩

/-- The events the rebuild considers: severity floor 15, optional time
window, newest first. -/
def selectedEvents (st : Store) (since upto : Option ℤ) : List EventR :=
  (st.events.filter (fun e =>
    decide ((15 : ℚ) ≤ e.severityScore) &&
      (match since with | none => true | some s => decide (s ≤ e.occurredOn)) &&
      (match upto with | none => true | some u => decide (e.occurredOn ≤ u)))).insertionSort
        byOccurredDesc

/-- `PropensityScorer.rebuild_opportunities`: select the events at or
above the severity floor 15 inside the optional window, newest first,
and upsert an opportunity for every sufficiently scoring
(GC/owner, driver event) pair.  Nothing in the loop bodies can raise in
this model, so the error list stays empty. -/
noncomputable def rebuildOpportunities (st : Store) (now : ℤ)
    (since upto : Option ℤ) : Store × RebuildResults :=
  (selectedEvents st since upto).foldl (processEvent now) (st, {})

/-! ### A flat view of the rebuild loop, used by the proofs

The nested loops above thread the whole store, but every iteration only
reads the store's `companies` / `relationships` / `events` / `metrics`
fields — which the loop never modifies — and only writes
`opportunities`.  The following definitions express one upsert as a step
on `(opportunities, results)` with the score taken against a fixed
store, and the loop as a fold over the flattened list of
(event, relationship, company-id, company) work items. -/

/-- Replace a store's opportunity list. -/
def setOpps (st : Store) (ops : List OppR) : Store :=
  { st with opportunities := ops }

/-- The stores agree on everything the scorer and the loop read. -/
def FieldsEq (st st' : Store) : Prop :=
  st.companies = st'.companies ∧ st.relationships = st'.relationships ∧
  st.events = st'.events ∧ st.metrics = st'.metrics

/-- The (company id, company) pairs one `company_id` loop slot
contributes: nothing when the id is missing or dangling. -/
def targets3 (st : Store) (cido : Option ℕ) : List (ℕ × CompanyR) :=
  match cido with
  | none => []
  | some cid =>
    match st.companies.find? (fun c => c.id == cid) with
    | none => []
    | some comp => [(cid, comp)]

/-- The targets of one relationship: GC slot then owner slot. -/
def relTargets (st : Store) (r : RelR) : List (ℕ × CompanyR) :=
  targets3 st r.gcId ++ targets3 st r.ownerId

/-- The flattened work items of a rebuild over store `st`. -/
def rebuildItems (st : Store) (since upto : Option ℤ) :
    List (EventR × RelR × ℕ × CompanyR) :=
  (selectedEvents st since upto).flatMap (fun e =>
    (st.relationships.filter (fun r => r.subId == e.companyId)).flatMap (fun r =>
      (relTargets st r).map (fun p => (e, r, p.1, p.2))))

/-- One upsert on `(opportunities, results)`, scoring against the fixed
store `st₀`. -/
noncomputable def upsertStep (st₀ : Store) (now : ℤ)
    (acc : List OppR × RebuildResults) (item : EventR × RelR × ℕ × CompanyR) :
    List OppR × RebuildResults :=
  if 30 ≤ (calculatePropensityScore st₀ now item.2.2.2 item.1).1 then
    if (acc.1.find? (oppMatches item.2.1 item.2.2.1 item.1.id)).isSome then
      (updateFirst (oppMatches item.2.1 item.2.2.1 item.1.id)
        (fun o => { o with
          propensityScore := (calculatePropensityScore st₀ now item.2.2.2 item.1).1,
          recommendedTalkTrack :=
            (calculatePropensityScore st₀ now item.2.2.2 item.1).2.2 }) acc.1,
       { acc.2 with updated := acc.2.updated + 1 })
    else
      (acc.1 ++
        [{ gcId := if item.2.1.gcId == some item.2.2.1 then some item.2.2.1 else none,
           ownerId := if item.2.1.ownerId == some item.2.2.1 then some item.2.2.1 else none,
           driverEventId := item.1.id,
           propensityScore := (calculatePropensityScore st₀ now item.2.2.2 item.1).1,
           confidence := 4/5,
           recommendedTalkTrack :=
             (calculatePropensityScore st₀ now item.2.2.2 item.1).2.2 }],
       { acc.2 with created := acc.2.created + 1 })
  else acc

/-- An opportunity row referencing company `cid` in either company column
for driver event `eid`: the "(target company, driver incident) pair". -/
def targetKey (cid eid : ℕ) (o : OppR) : Bool :=
  (o.gcId == some cid || o.ownerId == some cid) && o.driverEventId == eid

/-- An opportunity row referencing company `cid` in the `gc_id` column for
driver event `eid`. -/
def gcKey (cid eid : ℕ) (o : OppR) : Bool :=
  o.gcId == some cid && o.driverEventId == eid

/-- At most one opportunity row per `(gc_id, driver_event_id)` key. -/
def GcUnique (ops : List OppR) : Prop :=
  ∀ cid eid : ℕ, ops.countP (gcKey cid eid) ≤ 1

/-- Distinct stored events carry distinct primary keys (what the database
guarantees for `Event.id`). -/
def EventIdsUnique (st : Store) : Prop :=
  ∀ e1 ∈ st.events, ∀ e2 ∈ st.events, e1.id = e2.id → e1 = e2

/-- A well-formed work item over store `st`: the company id comes from one
of the relationship's two columns and resolves to the item's company, and
the event is a stored one. -/
def ItemWF (st : Store) (it : EventR × RelR × ℕ × CompanyR) : Prop :=
  (it.2.1.gcId = some it.2.2.1 ∨ it.2.1.ownerId = some it.2.2.1) ∧
  st.companies.find? (fun c => c.id == it.2.2.1) = some it.2.2.2 ∧
  it.1 ∈ st.events

/-- A record's two company columns, when both set, hold the same id (true
of every record the rebuild loop inserts). -/
def RecWF (ops : List OppR) : Prop :=
  ∀ o ∈ ops, ∀ c1 c2 : ℕ, o.gcId = some c1 → o.ownerId = some c2 → c1 = c2

/-- Every stored score and talk track agrees with what the scorer returns
for any matching work item. -/
def Coh (st : Store) (now : ℤ) (items : List (EventR × RelR × ℕ × CompanyR))
    (ops : List OppR) : Prop :=
  ∀ o ∈ ops, ∀ it ∈ items, oppMatches it.2.1 it.2.2.1 it.1.id o = true →
    o.propensityScore = (calculatePropensityScore st now it.2.2.2 it.1).1 ∧
    o.recommendedTalkTrack = (calculatePropensityScore st now it.2.2.2 it.1).2.2

/-- Every qualifying work item already has a matching record. -/
def Sat (st : Store) (now : ℤ) (items : List (EventR × RelR × ℕ × CompanyR))
    (ops : List OppR) : Prop :=
  ∀ it ∈ items, 30 ≤ (calculatePropensityScore st now it.2.2.2 it.1).1 →
    (ops.find? (oppMatches it.2.1 it.2.2.1 it.1.id)).isSome = true

/-! ### A concrete store for the rebuild claims

One GC-side company referenced as `gc_id` by one relationship and as
`owner_id` by a second relationship of the same subcontractor, and a
single qualifying driver event against that subcontractor. -/

def exGc : CompanyR :=
  { id := 1, name := "Acme Construction", ctype := .GC,
    normalizedName := "ACME CONSTRUCTION" }

def exSub : CompanyR :=
  { id := 2, name := "Steel Sub", ctype := .SUB, normalizedName := "STEEL SUB" }

def exRelGc : RelR := { gcId := some 1, subId := 2 }

def exRelOwner : RelR := { ownerId := some 1, subId := 2 }

def exEvent : EventR :=
  { id := 1, eventType := "accident", companyId := 2, occurredOn := 0,
    severityScore := 20 }

def exStore : Store :=
  { companies := [exGc, exSub], relationships := [exRelGc, exRelOwner],
    events := [exEvent] }

/-! ## Supporting lemmas

General list helpers, then lemmas about the normalizer pipeline. -/

theorem foldl_fixed {α β : Type} {f : β → α → β} {x : β} :
    ∀ {as : List α}, (∀ a ∈ as, f x a = x) → as.foldl f x = x := by
  intro as
  induction as with
  | nil => intro _; rfl
  | cons a t ih =>
    intro h
    have hx : f x a = x := h a (by simp)
    simp only [List.foldl_cons, hx]
    exact ih (fun b hb => h b (by simp [hb]))

theorem toList_mk (l : List Char) : (⟨l⟩ : String).toList = l := rfl

theorem stripAlts_nil (alts : List (List Char)) (prev : Bool) :
    stripAlts alts prev [] = [] := rfl

theorem stripAlts_cons_prev (alts : List (List Char)) (c : Char) (t : List Char) :
    stripAlts alts true (c :: t) = c :: stripAlts alts (wordChar c) t := by
  simp [stripAlts, stripAltsAux]

theorem stripAlts_cons_nomatch (alts : List (List Char)) (c : Char) (t : List Char)
    (h : alts.find? (fun w => matchWord w (c :: t)) = none) :
    stripAlts alts false (c :: t) = c :: stripAlts alts (wordChar c) t := by
  simp only [stripAlts, stripAltsAux, Bool.false_eq_true, if_false, h]

/-- A pass of suffix removal is the identity on strings in which none of
its words occurs (relative to the scanner state `prev`). -/
theorem stripAlts_eq_self (alts : List (List Char)) :
    ∀ (l : List Char) (prev : Bool),
      (∀ w ∈ alts, hasWordOcc w prev l = false) → stripAlts alts prev l = l := by
  intro l
  induction l with
  | nil => intro prev _; exact stripAlts_nil alts prev
  | cons c t ih =>
    intro prev h
    have hrest : ∀ w ∈ alts, hasWordOcc w (wordChar c) t = false := by
      intro w hw
      have := h w hw
      simp only [hasWordOcc, Bool.or_eq_false_iff] at this
      exact this.2
    cases hp : prev with
    | true =>
      rw [stripAlts_cons_prev, ih (wordChar c) hrest]
    | false =>
      have hmatch : ∀ w ∈ alts, ¬ (matchWord w (c :: t) = true) := by
        intro w hw
        have := h w hw
        simp only [hasWordOcc, Bool.or_eq_false_iff, Bool.and_eq_false_iff] at this
        rcases this.1 with h1 | h1
        · rw [hp] at h1
          simp at h1
        · simp [h1]
      have hfind : alts.find? (fun w => matchWord w (c :: t)) = none := by
        rw [List.find?_eq_none]
        intro w hw
        simpa using hmatch w hw
      rw [stripAlts_cons_nomatch alts c t hfind, ih (wordChar c) hrest]

theorem stripAlts_cons_match (alts : List (List Char)) (c : Char) (t : List Char)
    (w : List Char) (hfind : alts.find? (fun w => matchWord w (c :: t)) = some w) :
    stripAlts alts false (c :: t) =
      (if ((c :: t).drop w.length).head? = some '.' then
        stripAlts alts false ((c :: t).drop w.length).tail
      else
        stripAlts alts true ((c :: t).drop w.length)) := by
  have hm := List.find?_some hfind
  simp only [decide_eq_true_eq] at hm
  obtain ⟨hw1, -⟩ := matchWord_length hm
  obtain ⟨k, hk⟩ : ∃ k, w.length = k + 1 := ⟨w.length - 1, by omega⟩
  have h0 : stripAlts alts false (c :: t) =
      (if ((c :: t).drop w.length).head? = some '.' then
        stripAltsAux alts w.length false t
      else
        stripAltsAux alts (w.length - 1) true t) := by
    simp only [stripAlts, stripAltsAux, Bool.false_eq_true, if_false, hfind]
  rw [h0]
  by_cases hp : ((c :: t).drop w.length).head? = some '.'
  · rw [if_pos hp, if_pos hp, stripAltsAux_skip]
    have : ((c :: t).drop w.length).tail = t.drop w.length := by
      rw [List.tail_drop, hk, List.drop_succ_cons]
    rw [this]
    rfl
  · rw [if_neg hp, if_neg hp, stripAltsAux_skip]
    have : (c :: t).drop w.length = t.drop (w.length - 1) := by
      rw [hk, List.drop_succ_cons]
      simp
    rw [this]
    rfl

/-- Suffix removal only deletes characters. -/
theorem stripAlts_sublist (alts : List (List Char)) :
    ∀ (n : ℕ) (l : List Char), l.length ≤ n → ∀ prev,
      List.Sublist (stripAlts alts prev l) l := by
  intro n
  induction n with
  | zero =>
    intro l hl prev
    interval_cases hl' : l.length
    · rw [List.length_eq_zero] at hl'
      subst hl'
      simp [stripAlts_nil]
  | succ n ih =>
    intro l hl prev
    cases l with
    | nil => simp [stripAlts_nil]
    | cons c t =>
      have ht : t.length ≤ n := by simp at hl; omega
      cases prev with
      | true =>
        rw [stripAlts_cons_prev]
        exact (ih t ht (wordChar c)).cons₂ c
      | false =>
        cases hfind : alts.find? (fun w => matchWord w (c :: t)) with
        | none =>
          rw [stripAlts_cons_nomatch alts c t hfind]
          exact (ih t ht (wordChar c)).cons₂ c
        | some w =>
          rw [stripAlts_cons_match alts c t w hfind]
          have hm := List.find?_some hfind
          simp only [decide_eq_true_eq] at hm
          obtain ⟨hw1, hw2⟩ := matchWord_length hm
          have hdropsub : List.Sublist ((c :: t).drop w.length) (c :: t) :=
            List.drop_sublist _ _
          have hdlen : ((c :: t).drop w.length).length ≤ n := by
            rw [List.length_drop]
            simp at hl ⊢
            omega
          by_cases hd : ((c :: t).drop w.length).head? = some '.'
          · rw [if_pos hd]
            have htail : List.Sublist (((c :: t).drop w.length).tail) ((c :: t).drop w.length) :=
              List.tail_sublist _
            have hlen2 : (((c :: t).drop w.length).tail).length ≤ n := by
              rw [List.length_tail]
              omega
            exact ((ih _ hlen2 false).trans htail).trans hdropsub
          · rw [if_neg hd]
            exact (ih _ hdlen true).trans hdropsub


theorem wsWords_eq_nil {l : List Char} (h : l.dropWhile wsChar = []) :
    wsWords l = [] := by
  rw [wsWords]
  cases l with
  | nil => rfl
  | cons a b =>
    show (match (a :: b).dropWhile wsChar with
      | [] => []
      | c :: t => (c :: t.takeWhile (fun x => !wsChar x)) ::
          wsWordsF b.length (t.dropWhile (fun x => !wsChar x))) = []
    rw [h]

theorem wsWords_eq_cons {l : List Char} {c : Char} {t : List Char}
    (h : l.dropWhile wsChar = c :: t) :
    wsWords l = (c :: t.takeWhile (fun x => !wsChar x)) ::
      wsWords (t.dropWhile (fun x => !wsChar x)) := by
  cases l with
  | nil => rw [List.dropWhile_nil] at h; cases h
  | cons a b =>
    rw [wsWords]
    show (match (a :: b).dropWhile wsChar with
      | [] => []
      | c :: t => (c :: t.takeWhile (fun x => !wsChar x)) ::
          wsWordsF b.length (t.dropWhile (fun x => !wsChar x))) = _
    rw [h]
    have hct : t.length + 1 ≤ b.length + 1 := by
      have hs := (List.dropWhile_sublist (l := a :: b) wsChar).length_le
      rw [h] at hs
      simpa using hs
    have hlen : (t.dropWhile (fun x => !wsChar x)).length ≤ t.length :=
      (List.dropWhile_sublist _).length_le
    show (c :: List.takeWhile (fun x => !wsChar x) t) ::
        wsWordsF b.length (List.dropWhile (fun x => !wsChar x) t) = _
    rw [wsWords, wsWordsF_fuel b.length (t.dropWhile (fun x => !wsChar x))
      ((t.dropWhile (fun x => !wsChar x)).length) (by omega) le_rfl]

/-- The words produced by `str.split()` are non-empty, whitespace-free,
and made of characters of the input. -/
theorem wsWords_spec :
    ∀ (n : ℕ) (l : List Char), l.length ≤ n → ∀ w ∈ wsWords l,
      w ≠ [] ∧ (∀ c ∈ w, wsChar c = false) ∧ (∀ c ∈ w, c ∈ l) := by
  intro n
  induction n with
  | zero =>
    intro l hl
    have : l = [] := by
      cases l with
      | nil => rfl
      | cons a b => simp at hl
    subst this
    rw [wsWords_eq_nil (by simp)]
    intro w hw
    cases hw
  | succ n ih =>
    intro l hl w hw
    cases hdw : l.dropWhile wsChar with
    | nil =>
      rw [wsWords_eq_nil hdw] at hw
      cases hw
    | cons c t =>
      rw [wsWords_eq_cons hdw] at hw
      have hdsub : List.Sublist (c :: t) l := by
        rw [← hdw]; exact List.dropWhile_sublist wsChar
      rcases List.mem_cons.mp hw with hw | hw
      · subst hw
        refine ⟨by simp, ?_, ?_⟩
        · intro x hx
          rcases List.mem_cons.mp hx with hx | hx
          · subst hx
            have := List.head?_dropWhile_not wsChar l
            rw [hdw] at this
            simpa using this
          · simpa using List.mem_takeWhile_imp hx
        · intro x hx
          rcases List.mem_cons.mp hx with hx | hx
          · subst hx
            exact hdsub.subset (by simp)
          · exact hdsub.subset (by
              have : x ∈ t := (List.takeWhile_sublist _).subset hx
              simp [this])
      · have htlen : (t.dropWhile (fun x => !wsChar x)).length ≤ n := by
          have h1 : (c :: t).length ≤ l.length := hdsub.length_le
          have h2 : (t.dropWhile (fun x => !wsChar x)).length ≤ t.length :=
            (List.dropWhile_sublist _).length_le
          simp at h1
          omega
        obtain ⟨h1, h2, h3⟩ := ih _ htlen w hw
        refine ⟨h1, h2, fun x hx => ?_⟩
        have hx1 : x ∈ t.dropWhile (fun x => !wsChar x) := h3 x hx
        have hx2 : x ∈ t := (List.dropWhile_sublist _).subset hx1
        exact hdsub.subset (by simp [hx2])

theorem takeWhile_all {p : Char → Bool} :
    ∀ {l : List Char}, (∀ c ∈ l, p c = true) → l.takeWhile p = l := by
  intro l
  induction l with
  | nil => intro _; rfl
  | cons c t ih =>
    intro h
    rw [List.takeWhile_cons, if_pos (h c (by simp)), ih (fun x hx => h x (by simp [hx]))]

theorem dropWhile_all {p : Char → Bool} :
    ∀ {l : List Char}, (∀ c ∈ l, p c = true) → l.dropWhile p = [] := by
  intro l
  induction l with
  | nil => intro _; rfl
  | cons c t ih =>
    intro h
    rw [List.dropWhile_cons, if_pos (h c (by simp)), ih (fun x hx => h x (by simp [hx]))]

theorem takeWhile_append_all {p : Char → Bool} :
    ∀ {w x : List Char}, (∀ c ∈ w, p c = true) →
      (w ++ x).takeWhile p = w ++ x.takeWhile p := by
  intro w
  induction w with
  | nil => intro x _; rfl
  | cons c t ih =>
    intro x h
    rw [List.cons_append, List.takeWhile_cons, if_pos (h c (by simp)),
      ih (fun y hy => h y (by simp [hy])), List.cons_append]

theorem dropWhile_append_all {p : Char → Bool} :
    ∀ {w x : List Char}, (∀ c ∈ w, p c = true) →
      (w ++ x).dropWhile p = x.dropWhile p := by
  intro w
  induction w with
  | nil => intro x _; rfl
  | cons c t ih =>
    intro x h
    rw [List.cons_append, List.dropWhile_cons, if_pos (h c (by simp)),
      ih (fun y hy => h y (by simp [hy]))]

theorem dropWhile_eq_self_of_head {p : Char → Bool} {l : List Char}
    (h : ∀ c, l.head? = some c → p c = false) : l.dropWhile p = l := by
  cases l with
  | nil => rfl
  | cons c t =>
    rw [List.dropWhile_cons, if_neg]
    simp [h c rfl]

theorem intercalate_nil_words (sep : List Char) :
    List.intercalate sep [] = [] := by
  simp [List.intercalate]

theorem intercalate_single (sep w : List Char) :
    List.intercalate sep [w] = w := by
  simp [List.intercalate]

theorem intercalate_cons₂ (sep a b : List Char) (t : List (List Char)) :
    List.intercalate sep (a :: b :: t) = a ++ sep ++ List.intercalate sep (b :: t) := by
  simp [List.intercalate, List.intersperse_cons₂, List.append_assoc]

theorem wsWords_cons_ws {c : Char} (hc : wsChar c = true) (l : List Char) :
    wsWords (c :: l) = wsWords l := by
  have hd : (c :: l).dropWhile wsChar = l.dropWhile wsChar := by
    rw [List.dropWhile_cons, if_pos hc]
  cases hdw : l.dropWhile wsChar with
  | nil =>
    rw [wsWords_eq_nil (by rw [hd, hdw]), wsWords_eq_nil hdw]
  | cons x t =>
    rw [wsWords_eq_cons (by rw [hd, hdw] : (c :: l).dropWhile wsChar = x :: t),
      wsWords_eq_cons hdw]

/-- `str.split()` recovers the word list from a single-space join of
non-empty whitespace-free words. -/
theorem wsWords_intercalate :
    ∀ (ws : List (List Char)),
      (∀ w ∈ ws, w ≠ [] ∧ ∀ c ∈ w, wsChar c = false) →
      wsWords (List.intercalate [' '] ws) = ws := by
  intro ws
  induction ws with
  | nil => intro _; rw [intercalate_nil_words]; exact wsWords_eq_nil (by simp)
  | cons w rest ih =>
    intro h
    obtain ⟨hw1, hw2⟩ := h w (by simp)
    obtain ⟨c, t, rfl⟩ : ∃ c t, w = c :: t := by
      cases w with
      | nil => exact absurd rfl hw1
      | cons c t => exact ⟨c, t, rfl⟩
    have hc : wsChar c = false := hw2 c (by simp)
    have ht : ∀ x ∈ t, wsChar x = false := fun x hx => hw2 x (by simp [hx])
    cases rest with
    | nil =>
      rw [intercalate_single]
      rw [wsWords_eq_cons (l := c :: t) (by
        rw [List.dropWhile_cons, if_neg (by simp [hc])])]
      rw [takeWhile_all (by simpa using ht), dropWhile_all (by simpa using ht)]
      rw [wsWords_eq_nil (l := ([] : List Char)) (by simp)]
    | cons w' rest' =>
      rw [intercalate_cons₂]
      have happ : (c :: t) ++ [' '] ++ List.intercalate [' '] (w' :: rest') =
          c :: (t ++ ' ' :: List.intercalate [' '] (w' :: rest')) := by simp
      rw [happ]
      rw [wsWords_eq_cons (by rw [List.dropWhile_cons, if_neg (by simp [hc])])]
      rw [takeWhile_append_all (by simpa using ht)]
      rw [dropWhile_append_all (by simpa using ht)]
      have hsp : wsChar ' ' = true := by decide
      have h1 : (' ' :: List.intercalate [' '] (w' :: rest')).takeWhile
          (fun x => !wsChar x) = [] := by
        rw [List.takeWhile_cons, if_neg (by simp [hsp])]
      have h2 : (' ' :: List.intercalate [' '] (w' :: rest')).dropWhile
          (fun x => !wsChar x) = ' ' :: List.intercalate [' '] (w' :: rest') := by
        rw [List.dropWhile_cons, if_neg (by simp [hsp])]
      rw [h1, h2, List.append_nil, wsWords_cons_ws hsp,
        ih (fun w hw => h w (by simp [hw]))]

theorem intercalate_cons_ne_nil {w : List Char} (hw : w ≠ []) (t : List (List Char)) :
    List.intercalate [' '] (w :: t) ≠ [] := by
  cases t with
  | nil => rw [intercalate_single]; exact hw
  | cons b t' =>
    rw [intercalate_cons₂]
    simp [hw]

theorem head?_intercalate_nonws :
    ∀ (ws : List (List Char)), (∀ w ∈ ws, w ≠ [] ∧ ∀ c ∈ w, wsChar c = false) →
      ∀ c, (List.intercalate [' '] ws).head? = some c → wsChar c = false := by
  intro ws h c hc
  cases ws with
  | nil => rw [intercalate_nil_words] at hc; cases hc
  | cons w rest =>
    obtain ⟨hw1, hw2⟩ := h w (by simp)
    have hhead : (List.intercalate [' '] (w :: rest)).head? = w.head? := by
      cases rest with
      | nil => rw [intercalate_single]
      | cons b t' =>
        rw [intercalate_cons₂, List.append_assoc, List.head?_append]
        cases w with
        | nil => exact absurd rfl hw1
        | cons x xs => rfl
    rw [hhead] at hc
    exact hw2 c (List.mem_of_mem_head? hc)

theorem getLast?_intercalate_nonws :
    ∀ (ws : List (List Char)), (∀ w ∈ ws, w ≠ [] ∧ ∀ c ∈ w, wsChar c = false) →
      ∀ c, (List.intercalate [' '] ws).getLast? = some c → wsChar c = false := by
  intro ws
  induction ws with
  | nil =>
    intro _ c hc
    rw [intercalate_nil_words] at hc
    cases hc
  | cons w rest ih =>
    intro h c hc
    obtain ⟨hw1, hw2⟩ := h w (by simp)
    cases rest with
    | nil =>
      rw [intercalate_single] at hc
      exact hw2 c (List.mem_of_getLast?_eq_some hc)
    | cons b t' =>
      obtain ⟨hb1, hb2⟩ := h b (by simp)
      rw [intercalate_cons₂, List.append_assoc, List.getLast?_append] at hc
      have hne : ([' '] ++ List.intercalate [' '] (b :: t')).getLast? =
          (List.intercalate [' '] (b :: t')).getLast? := by
        rw [List.getLast?_append]
        have : List.intercalate [' '] (b :: t') ≠ [] := intercalate_cons_ne_nil hb1 t'
        cases hX : List.intercalate [' '] (b :: t') with
        | nil => exact absurd hX this
        | cons y ys =>
          have : (y :: ys).getLast?.isSome := by simp [List.getLast?_cons]
          cases hg : (y :: ys).getLast? with
          | none => rw [hg] at this; cases this
          | some z => simp [hg]
      rw [hne] at hc
      have hX : (List.intercalate [' '] (b :: t')).getLast?.isSome := by
        have hnn : List.intercalate [' '] (b :: t') ≠ [] := intercalate_cons_ne_nil hb1 t'
        cases hXX : List.intercalate [' '] (b :: t') with
        | nil => exact absurd hXX hnn
        | cons y ys => simp [List.getLast?_cons]
      cases hg : (List.intercalate [' '] (b :: t')).getLast? with
      | none => rw [hg] at hX; cases hX
      | some z =>
        rw [hg] at hc
        simp at hc
        subst hc
        exact ih (fun w hw => h w (by simp [hw])) z hg

theorem trimWs_intercalate (ws : List (List Char))
    (h : ∀ w ∈ ws, w ≠ [] ∧ ∀ c ∈ w, wsChar c = false) :
    trimWs (List.intercalate [' '] ws) = List.intercalate [' '] ws := by
  have h1 : (List.intercalate [' '] ws).dropWhile wsChar = List.intercalate [' '] ws :=
    dropWhile_eq_self_of_head (fun c hc => head?_intercalate_nonws ws h c hc)
  have h2 : (List.intercalate [' '] ws).reverse.dropWhile wsChar =
      (List.intercalate [' '] ws).reverse :=
    dropWhile_eq_self_of_head (fun c hc =>
      getLast?_intercalate_nonws ws h c (by rwa [List.head?_reverse] at hc))
  rw [trimWs, h1, h2, List.reverse_reverse]

theorem collapseWs_words (l : List Char) :
    ∀ w ∈ wsWords l, w ≠ [] ∧ ∀ c ∈ w, wsChar c = false := by
  intro w hw
  obtain ⟨h1, h2, _⟩ := wsWords_spec l.length l le_rfl w hw
  exact ⟨h1, h2⟩

theorem trimWs_collapseWs (l : List Char) : trimWs (collapseWs l) = collapseWs l :=
  trimWs_intercalate _ (collapseWs_words l)

theorem collapseWs_collapseWs (l : List Char) :
    collapseWs (collapseWs l) = collapseWs l := by
  calc collapseWs (collapseWs l)
      = List.intercalate [' '] (wsWords (List.intercalate [' '] (wsWords l))) := rfl
    _ = List.intercalate [' '] (wsWords l) := by
        rw [wsWords_intercalate _ (collapseWs_words l)]
    _ = collapseWs l := rfl

theorem mem_trimWs {c : Char} {l : List Char} (h : c ∈ trimWs l) : c ∈ l := by
  simp only [trimWs, List.mem_reverse] at h
  have h1 : c ∈ (l.dropWhile wsChar).reverse := (List.dropWhile_sublist wsChar).subset h
  rw [List.mem_reverse] at h1
  exact (List.dropWhile_sublist wsChar).subset h1

theorem mem_intercalate_space :
    ∀ {ws : List (List Char)} {c : Char}, c ∈ List.intercalate [' '] ws →
      c = ' ' ∨ ∃ w ∈ ws, c ∈ w := by
  intro ws
  induction ws with
  | nil =>
    intro c hc
    rw [intercalate_nil_words] at hc
    cases hc
  | cons w rest ih =>
    intro c hc
    cases rest with
    | nil =>
      rw [intercalate_single] at hc
      exact Or.inr ⟨w, by simp, hc⟩
    | cons b t' =>
      rw [intercalate_cons₂, List.append_assoc, List.mem_append] at hc
      rcases hc with hc | hc
      · exact Or.inr ⟨w, by simp, hc⟩
      · rw [List.mem_append] at hc
        rcases hc with hc | hc
        · exact Or.inl (by simpa using hc)
        · rcases ih hc with hc | ⟨w', hw', hcw⟩
          · exact Or.inl hc
          · exact Or.inr ⟨w', by simp [hw'], hcw⟩

theorem mem_collapseWs {c : Char} {l : List Char} (h : c ∈ collapseWs l) :
    c = ' ' ∨ c ∈ l := by
  rcases mem_intercalate_space h with h1 | ⟨w, hw, hcw⟩
  · exact Or.inl h1
  · exact Or.inr ((wsWords_spec l.length l le_rfl w hw).2.2 c hcw)

theorem stripSuffixes_sublist (l : List Char) :
    List.Sublist (stripSuffixes l) l := by
  rw [stripSuffixes]
  generalize suffixAlts = alls
  induction alls generalizing l with
  | nil => exact List.Sublist.refl l
  | cons a t ih =>
    rw [List.foldl_cons]
    exact (ih (stripAlts a false l)).trans (stripAlts_sublist a l.length l le_rfl false)

theorem toNat_ofNat_valid {n : ℕ} (h : n.isValidChar) : (Char.ofNat n).toNat = n := by
  rw [Char.ofNat, dif_pos h]
  rfl

theorem toUpper_toUpper (c : Char) : c.toUpper.toUpper = c.toUpper := by
  by_cases h : 97 ≤ c.toNat ∧ c.toNat ≤ 122
  · have h1 : c.toUpper = Char.ofNat (c.toNat - 32) := by
      rw [Char.toUpper, if_pos h]
    have hv : (c.toNat - 32).isValidChar := Or.inl (by omega)
    have h2 : (Char.ofNat (c.toNat - 32)).toNat = c.toNat - 32 := toNat_ofNat_valid hv
    rw [h1, Char.toUpper, if_neg (by rw [h2]; omega)]
  · have h1 : c.toUpper = c := by rw [Char.toUpper, if_neg h]
    rw [h1, h1]

theorem map_toUpper_self {l : List Char} (h : ∀ c ∈ l, c.toUpper = c) :
    l.map Char.toUpper = l := by
  induction l with
  | nil => rfl
  | cons c t ih =>
    rw [List.map_cons, h c (by simp), ih (fun x hx => h x (by simp [hx]))]

theorem normChars_eq_collapseWs (l : List Char) :
    normChars l =
      collapseWs ((stripSuffixes ((trimWs l).map Char.toUpper)).filter keepChar) := by
  rw [normChars, trimWs_collapseWs]

theorem upperFixed_normChars {l : List Char} :
    ∀ c ∈ normChars l, c.toUpper = c := by
  intro c hc
  rw [normChars_eq_collapseWs] at hc
  rcases mem_collapseWs hc with h1 | h1
  · subst h1; decide
  · have h2 : c ∈ stripSuffixes ((trimWs l).map Char.toUpper) :=
      List.mem_of_mem_filter h1
    have h3 : c ∈ (trimWs l).map Char.toUpper := (stripSuffixes_sublist _).subset h2
    rw [List.mem_map] at h3
    obtain ⟨c', _, rfl⟩ := h3
    exact toUpper_toUpper c'

theorem keepChar_normChars {l : List Char} :
    ∀ c ∈ normChars l, keepChar c = true := by
  intro c hc
  rw [normChars_eq_collapseWs] at hc
  rcases mem_collapseWs hc with h1 | h1
  · subst h1; decide
  · exact List.of_mem_filter h1

theorem stripSuffixes_eq_self {l : List Char}
    (h : ∀ alts ∈ suffixAlts, ∀ w ∈ alts, hasWordOcc w false l = false) :
    stripSuffixes l = l := by
  rw [stripSuffixes]
  exact foldl_fixed (fun alts ha => stripAlts_eq_self alts l false (h alts ha))

/-- The core of the corrected idempotence property: a second
normalization pass is the identity provided no suffix word occurs as a
whole word in the first pass's output. -/
theorem normChars_normChars {l : List Char}
    (h : ∀ alts ∈ suffixAlts, ∀ w ∈ alts, hasWordOcc w false (normChars l) = false) :
    normChars (normChars l) = normChars l := by
  have hTW : trimWs (normChars l) = normChars l := by
    rw [normChars_eq_collapseWs]
    exact trimWs_collapseWs _
  have hUP : (normChars l).map Char.toUpper = normChars l :=
    map_toUpper_self upperFixed_normChars
  have hSS : stripSuffixes (normChars l) = normChars l := stripSuffixes_eq_self h
  have hFK : (normChars l).filter keepChar = normChars l :=
    List.filter_eq_self.mpr keepChar_normChars
  calc normChars (normChars l)
      = trimWs (collapseWs ((stripSuffixes (((trimWs (normChars l)).map Char.toUpper))).filter
          keepChar)) := rfl
    _ = trimWs (collapseWs (normChars l)) := by rw [hTW, hUP, hSS, hFK]
    _ = trimWs (collapseWs (collapseWs ((stripSuffixes ((trimWs l).map
          Char.toUpper)).filter keepChar))) := by rw [normChars_eq_collapseWs]
    _ = trimWs (collapseWs ((stripSuffixes ((trimWs l).map Char.toUpper)).filter
          keepChar)) := by rw [collapseWs_collapseWs]
    _ = normChars l := by rw [← normChars]

/-! ## Claim C2 — normalizer idempotence -/

/-- C2 counterexample: the normalizer is not idempotent.  On
`"Acme L.L.C."` the suffix passes run before punctuation stripping, so
the first pass leaves `"ACME LLC"`, which a second pass reduces to
`"ACME"`. -/
theorem C2_normalize_not_idempotent :
    normalizeCompanyName "Acme L.L.C." = "ACME LLC" ∧
    normalizeCompanyName "ACME LLC" = "ACME" ∧
    normalizeCompanyName (normalizeCompanyName "Acme L.L.C.") ≠
      normalizeCompanyName "Acme L.L.C." := by
  decide

/-- C2 (amended): normalization is idempotent on every input whose first
normalization pass leaves no legal-entity suffix occurring as a whole
word; punctuated inputs such as `"Acme L.L.C."` violate that side
condition because the punctuation stripping (which runs after the suffix
passes) can fuse letters into a suffix word. -/
theorem C2_normalize_idempotent_of_no_suffix_token (s : String)
    (h : ∀ alts ∈ suffixAlts, ∀ w ∈ alts,
      hasWordOcc w false (normalizeCompanyName s).toList = false) :
    normalizeCompanyName (normalizeCompanyName s) = normalizeCompanyName s := by
  by_cases hs : s = ""
  · subst hs; decide
  · have h1 : normalizeCompanyName s = ⟨normChars s.toList⟩ := by
      rw [normalizeCompanyName, if_neg hs]
    rw [h1] at h ⊢
    by_cases h2 : (⟨normChars s.toList⟩ : String) = ""
    · rw [normalizeCompanyName, if_pos h2]
      exact h2.symm
    · rw [normalizeCompanyName, if_neg h2]
      rw [toList_mk] at h ⊢
      exact congrArg String.mk (normChars_normChars h)

/-- C2 witness: a clean input satisfying the amended claim's side
condition. -/
theorem C2_witness :
    (∀ alts ∈ suffixAlts, ∀ w ∈ alts,
      hasWordOcc w false (normalizeCompanyName "Acme Builders").toList = false) ∧
    normalizeCompanyName (normalizeCompanyName "Acme Builders") =
      normalizeCompanyName "Acme Builders" :=
  ⟨by decide, C2_normalize_idempotent_of_no_suffix_token "Acme Builders" (by decide)⟩

/-! ## Claim C3 — suffix removal is not anchored to the end -/

/-- C3 counterexample: the suffix regexes carry no end-of-string anchor,
so the whole word `Co` is removed even in non-final position — it is not
preserved in `"Co Builders"`. -/
theorem C3_interior_suffix_word_not_preserved :
    normalizeCompanyName "Co Builders" = "BUILDERS" ∧
    containsStr (normalizeCompanyName "Co Builders") "CO" = false := by
  decide

/-- C3 (amended): a legal-entity suffix word (with optional trailing
period) is removed wherever it occurs as a whole word — at the end, in
the middle, or at the start of the name. -/
theorem C3_suffix_words_removed_anywhere :
    normalizeCompanyName "Co Builders" = normalizeCompanyName "Builders" ∧
    normalizeCompanyName "Builders Co" = normalizeCompanyName "Builders" ∧
    normalizeCompanyName "Mid Corp. Plaza" = "MID PLAZA" ∧
    normalizeCompanyName "ABC Construction LLC" = normalizeCompanyName "ABC Construction" ∧
    normalizeCompanyName "XYZ Corp." = "XYZ" := by
  decide

/-! ## Lemmas about the fuzzy candidate list -/

theorem fuzzyCandidates_score_ge (threshold : ℚ) (st : Store) (q : String) :
    ∀ p ∈ fuzzyCandidates threshold st q, threshold ≤ p.2 := by
  intro p hp
  rw [fuzzyCandidates, List.mem_flatMap] at hp
  obtain ⟨c, -, hp⟩ := hp
  rw [List.mem_append] at hp
  rcases hp with hp | hp
  · by_cases hc : threshold ≤ fuzzRatio (normalizeCompanyName q) c.normalizedName
    · rw [if_pos hc, List.mem_singleton] at hp
      subst hp
      exact hc
    · rw [if_neg hc] at hp
      cases hp
  · rw [List.mem_flatMap] at hp
    obtain ⟨al, -, hp⟩ := hp
    by_cases ha : threshold ≤ fuzzRatio (normalizeCompanyName q)
        (normalizeCompanyName al.aliasText)
    · rw [if_pos ha, List.mem_singleton] at hp
      subst hp
      exact ha
    · rw [if_neg ha] at hp
      cases hp

theorem fuzzyCandidates_exists_iff (threshold : ℚ) (st : Store) (q : String) :
    (∃ p, p ∈ fuzzyCandidates threshold st q) ↔
      ∃ c ∈ st.companies,
        threshold ≤ fuzzRatio (normalizeCompanyName q) c.normalizedName ∨
        ∃ al ∈ aliasesOf st c.id,
          threshold ≤ fuzzRatio (normalizeCompanyName q)
            (normalizeCompanyName al.aliasText) := by
  constructor
  · rintro ⟨p, hp⟩
    rw [fuzzyCandidates, List.mem_flatMap] at hp
    obtain ⟨c, hc, hp⟩ := hp
    refine ⟨c, hc, ?_⟩
    rw [List.mem_append] at hp
    rcases hp with hp | hp
    · by_cases hcd : threshold ≤ fuzzRatio (normalizeCompanyName q) c.normalizedName
      · exact Or.inl hcd
      · rw [if_neg hcd] at hp
        cases hp
    · rw [List.mem_flatMap] at hp
      obtain ⟨al, hal, hp⟩ := hp
      by_cases ha : threshold ≤ fuzzRatio (normalizeCompanyName q)
          (normalizeCompanyName al.aliasText)
      · exact Or.inr ⟨al, hal, ha⟩
      · rw [if_neg ha] at hp
        cases hp
  · rintro ⟨c, hc, hcase⟩
    rcases hcase with hcd | ⟨al, hal, ha⟩
    · refine ⟨(c, fuzzRatio (normalizeCompanyName q) c.normalizedName), ?_⟩
      rw [fuzzyCandidates, List.mem_flatMap]
      exact ⟨c, hc, by rw [List.mem_append, if_pos hcd]; exact Or.inl (by simp)⟩
    · refine ⟨(c, fuzzRatio (normalizeCompanyName q)
        (normalizeCompanyName al.aliasText)), ?_⟩
      rw [fuzzyCandidates, List.mem_flatMap]
      refine ⟨c, hc, ?_⟩
      rw [List.mem_append, List.mem_flatMap]
      exact Or.inr ⟨al, hal, by rw [if_pos ha]; exact by simp⟩

theorem mem_findSimilarCompanies {threshold : ℚ} {st : Store} {q : String}
    {limit : ℕ} {p : CompanyR × ℚ} (hp : p ∈ findSimilarCompanies threshold st q limit) :
    p ∈ fuzzyCandidates threshold st q := by
  rw [findSimilarCompanies] at hp
  have h1 : p ∈ ((fuzzyCandidates threshold st q).dedup).insertionSort byScoreDesc :=
    (List.take_sublist _ _).subset hp
  rw [List.mem_insertionSort, List.mem_dedup] at h1
  exact h1

/-! ## Claim C6 — shape of `find_similar_companies` results -/

/-- C6 counterexample: `sorted(set(matches), ...)` removes only duplicate
`(company, score)` pairs, so a company whose alias also clears the
threshold at a different score appears twice in the result. -/
theorem C6_company_can_appear_twice :
    (findSimilarCompanies 85
      { companies := [{ id := 1, name := "AAAAAAA", ctype := .GC,
                        normalizedName := "AAAAAAA" }],
        aliases := [{ companyId := 1, aliasText := "AAAAAAAA", confidence := 1 }] }
      "AAAAAAA" 5).map (fun p => p.1.id) = [1, 1] := by
  have hq : normalizeCompanyName "AAAAAAA" = "AAAAAAA" := by decide
  have hq2 : normalizeCompanyName "AAAAAAAA" = "AAAAAAAA" := by decide
  have hr1 : fuzzRatio (normalizeCompanyName "AAAAAAA") "AAAAAAA" = 100 := by
    have hl : lcs "AAAAAAA".toList "AAAAAAA".toList = 7 := by decide
    have hlen : "AAAAAAA".toList.length = 7 := by decide
    rw [hq, fuzzRatio, hl, hlen]
    norm_num
  have hr2 : fuzzRatio (normalizeCompanyName "AAAAAAA")
      (normalizeCompanyName "AAAAAAAA") = 280/3 := by
    have hl : lcs "AAAAAAA".toList "AAAAAAAA".toList = 7 := by decide
    have hlen : "AAAAAAA".toList.length = 7 := by decide
    have hlen2 : "AAAAAAAA".toList.length = 8 := by decide
    rw [hq, hq2, fuzzRatio, hl, hlen, hlen2]
    norm_num
  rw [findSimilarCompanies]
  norm_num [fuzzyCandidates, aliasesOf, hr1, hr2, List.flatMap_cons, List.dedup_cons_of_not_mem,
    List.insertionSort, List.orderedInsert, byScoreDesc]

/-- C6 (amended): the result list deduplicates exact `(company, score)`
pairs (not companies), is sorted in non-increasing score order, keeps
only candidates at or above the fuzzy threshold, and is truncated to
`limit`. -/
theorem C6_find_similar_shape (threshold : ℚ) (st : Store) (q : String) (limit : ℕ) :
    (findSimilarCompanies threshold st q limit).length ≤ limit ∧
    List.Sorted byScoreDesc (findSimilarCompanies threshold st q limit) ∧
    (findSimilarCompanies threshold st q limit).Nodup ∧
    ∀ p ∈ findSimilarCompanies threshold st q limit, threshold ≤ p.2 := by
  refine ⟨?_, ?_, ?_, ?_⟩
  · rw [findSimilarCompanies]
    exact List.length_take_le _ _
  · rw [findSimilarCompanies]
    exact (List.sorted_insertionSort byScoreDesc _).sublist (List.take_sublist _ _)
  · rw [findSimilarCompanies]
    refine List.Nodup.sublist (List.take_sublist _ _) ?_
    exact ((List.perm_insertionSort byScoreDesc _).nodup_iff).mpr
      (List.nodup_dedup _)
  · intro p hp
    exact fuzzyCandidates_score_ge threshold st q p (mem_findSimilarCompanies hp)

/-! ## Claim C10 — the fuzzy auto-match gate in `resolve_company` -/

/-- C10: with no exact normalized match, a successful resolution passes
both the 95 auto-match check and the fuzzy threshold filter; and for a
resolver configured with `fuzzy_threshold > 95`, a non-empty name
resolves exactly when some company name or alias clears the
threshold. -/
theorem C10_resolve_fuzzy_gate (threshold : ℚ) (st : Store) (q : String)
    (hnoexact : ∀ c ∈ st.companies, c.normalizedName ≠ normalizeCompanyName q) :
    (∀ c, resolveCompany threshold st q = some c →
      ∃ s, 95 ≤ s ∧ threshold ≤ s ∧ (c, s) ∈ fuzzyCandidates threshold st q) ∧
    (95 < threshold → q ≠ "" →
      ((resolveCompany threshold st q).isSome ↔
        ∃ c ∈ st.companies,
          threshold ≤ fuzzRatio (normalizeCompanyName q) c.normalizedName ∨
          ∃ al ∈ aliasesOf st c.id,
            threshold ≤ fuzzRatio (normalizeCompanyName q)
              (normalizeCompanyName al.aliasText))) := by
  have hfind : st.companies.find?
      (fun c => c.normalizedName == normalizeCompanyName q) = none := by
    rw [List.find?_eq_none]
    intro c hc
    simpa using hnoexact c hc
  constructor
  · intro c hres
    by_cases hq : q = ""
    · rw [resolveCompany, if_pos hq] at hres
      cases hres
    · rw [resolveCompany, if_neg hq] at hres
      rw [hfind] at hres
      cases hfs : findSimilarCompanies threshold st q 1 with
      | nil =>
        rw [hfs] at hres
        cases hres
      | cons p rest =>
        rw [hfs] at hres
        obtain ⟨c', s⟩ := p
        replace hres : (if (95 : ℚ) ≤ s then some c' else none) = some c := hres
        by_cases h95 : (95 : ℚ) ≤ s
        · rw [if_pos h95] at hres
          injection hres with hc'
          have hmem : (c', s) ∈ findSimilarCompanies threshold st q 1 := by
            rw [hfs]; exact List.mem_cons_self _ _
          have hcand := mem_findSimilarCompanies hmem
          exact hc' ▸ ⟨s, h95, fuzzyCandidates_score_ge threshold st q _ hcand, hcand⟩
        · rw [if_neg h95] at hres
          cases hres
  · intro hthr hq
    rw [← fuzzyCandidates_exists_iff]
    constructor
    · intro hsome
      rw [resolveCompany, if_neg hq, hfind] at hsome
      cases hfs : findSimilarCompanies threshold st q 1 with
      | nil =>
        rw [hfs] at hsome
        replace hsome : (none : Option CompanyR).isSome = true := hsome
        cases hsome
      | cons p rest =>
        exact ⟨p, mem_findSimilarCompanies (by rw [hfs]; exact List.mem_cons_self _ _)⟩
    · rintro ⟨p, hp⟩
      rw [resolveCompany, if_neg hq, hfind]
      cases hfs : findSimilarCompanies threshold st q 1 with
      | nil =>
        exfalso
        have h1 : p ∈ (fuzzyCandidates threshold st q).dedup := List.mem_dedup.mpr hp
        have h4 : ((fuzzyCandidates threshold st q).dedup).insertionSort byScoreDesc = [] := by
          rcases hsort : ((fuzzyCandidates threshold st q).dedup).insertionSort byScoreDesc
            with - | ⟨x, xs⟩
          · rfl
          · rw [findSimilarCompanies, hsort] at hfs
            simp at hfs
        have hlen := List.length_insertionSort byScoreDesc ((fuzzyCandidates threshold st q).dedup)
        rw [h4] at hlen
        have h5 : (fuzzyCandidates threshold st q).dedup = [] := by
          rw [← List.length_eq_zero]
          simpa using hlen.symm
        rw [h5] at h1
        cases h1
      | cons hd rest =>
        obtain ⟨c', s⟩ := hd
        have hmem : (c', s) ∈ findSimilarCompanies threshold st q 1 := by
          rw [hfs]; exact List.mem_cons_self _ _
        have hs : threshold ≤ s :=
          fuzzyCandidates_score_ge threshold st q _ (mem_findSimilarCompanies hmem)
        show (if (95 : ℚ) ≤ s then some c' else none).isSome = true
        rw [if_pos (le_trans (le_of_lt hthr) hs)]
        rfl

/-- C10 witness: a store with a single company whose only near matches
come from an alias; with `fuzzy_threshold = 96 > 95` and no exact match,
resolution succeeds exactly when a name or alias clears 96. -/
theorem C10_witness :
    ((resolveCompany 96
        { companies := [{ id := 1, name := "AAAAAAAB", ctype := .GC,
                          normalizedName := "AAAAAAAB" }],
          aliases := [] }
        "AAAAAAA").isSome ↔
      ∃ c ∈ [({ id := 1, name := "AAAAAAAB", ctype := .GC,
                normalizedName := "AAAAAAAB" } : CompanyR)],
        (96 : ℚ) ≤ fuzzRatio (normalizeCompanyName "AAAAAAA") c.normalizedName ∨
        ∃ al ∈ aliasesOf
            { companies := [{ id := 1, name := "AAAAAAAB", ctype := .GC,
                              normalizedName := "AAAAAAAB" }],
              aliases := [] } c.id,
          (96 : ℚ) ≤ fuzzRatio (normalizeCompanyName "AAAAAAA")
            (normalizeCompanyName al.aliasText)) :=
  (C10_resolve_fuzzy_gate 96 _ "AAAAAAA" (by decide)).2 (by norm_num) (by decide)

/-! ## Claims C4 and C5 — the severity component -/

/-- C4 counterexample: with the built-in default configuration the
fatality tier is `severity_weights["fatality"] = 50`, so the severity
component exceeds the stated cap of 25. -/
theorem C4_fatality_severity_exceeds_25 :
    severityScoreData { fatality := true } = 50 ∧
    ¬ severityScoreData { fatality := true } ≤ 25 := by
  decide

/-- C4 (amended): the severity component is bounded by 50, not 25; the
fatality flag yields exactly 50 under the default weights
(50/35/20/25/20/15/5). -/
theorem C4_severity_bounds :
    (∀ d : EventData, severityScoreData d ≤ 50) ∧
    (∀ d : EventData, d.fatality = true → severityScoreData d = 50) := by
  constructor
  · intro d
    rw [severityScoreData]
    split_ifs <;> norm_num
  · intro d hd
    rw [severityScoreData, if_pos hd]

/-- C4 witness: a fatality event reaches the 50-point bound. -/
theorem C4_witness :
    ({ fatality := true } : EventData).fatality = true ∧
    severityScoreData { fatality := true } = 50 :=
  ⟨rfl, C4_severity_bounds.2 _ rfl⟩

/-- C5: the severity checks form an if/elif chain, so an event with the
fatality flag scores exactly the fatality tier regardless of any other
attributes — nothing is summed. -/
theorem C5_fatality_first_match_wins (d : EventData) (h : d.fatality = true) :
    severityScoreData d = 50 := by
  rw [severityScoreData, if_pos h]

/-- C5 witness: fatality together with ten violations still scores
exactly the fatality tier. -/
theorem C5_witness :
    ({ fatality := true, violations := some 10 } : EventData).fatality = true ∧
    severityScoreData { fatality := true, violations := some 10 } = 50 :=
  ⟨rfl, C5_fatality_first_match_wins _ rfl⟩

/-! ## Claim C7 — the recency component -/

/-- C7: with the default configuration (half-life 90, horizon
`90 * 2 = 180`): 30 points up to 30 days, `30 * exp(-days/90)` on
(30, 180], 0 beyond 180 (in particular at 181 days), and the component
is non-increasing as the days elapsed grow. -/
theorem C7_recency_spec :
    (∀ now occ : ℤ, now - occ ≤ 30 → recencyScore now occ = 30) ∧
    (∀ now occ : ℤ, 30 < now - occ → now - occ ≤ 180 →
      recencyScore now occ = 30 * Real.exp (-((now - occ : ℤ) : ℝ) / 90)) ∧
    (∀ now occ : ℤ, 180 < now - occ → recencyScore now occ = 0) ∧
    (∀ now occ occ' : ℤ, occ' ≤ occ → recencyScore now occ' ≤ recencyScore now occ) := by
  have hb : (90 : ℤ) * 2 = 180 := by norm_num
  refine ⟨?_, ?_, ?_, ?_⟩
  · intro now occ h
    rw [recencyScore, if_pos h]
  · intro now occ h1 h2
    rw [recencyScore, if_neg (by omega), if_pos (by omega)]
  · intro now occ h
    rw [recencyScore, if_neg (by omega), if_neg (by omega)]
  · intro now occ occ' hle
    have hd : now - occ ≤ now - occ' := by omega
    rw [recencyScore, recencyScore]
    by_cases h1 : now - occ' ≤ 30
    · rw [if_pos h1, if_pos (by omega)]
    · rw [if_neg h1]
      by_cases h2 : now - occ ≤ 30
      · rw [if_pos h2]
        by_cases h3 : now - occ' ≤ 90 * 2
        · rw [if_pos h3]
          have hexp : Real.exp (-((now - occ' : ℤ) : ℝ) / 90) ≤ 1 := by
            rw [Real.exp_le_one_iff]
            have : (0 : ℝ) < ((now - occ' : ℤ) : ℝ) := by
              exact_mod_cast (by omega : (0 : ℤ) < now - occ')
            have h90 : (0 : ℝ) < 90 := by norm_num
            apply div_nonpos_of_nonpos_of_nonneg <;> nlinarith
          nlinarith [hexp]
        · rw [if_neg h3]
          norm_num
      · rw [if_neg h2]
        by_cases h3 : now - occ' ≤ 90 * 2
        · rw [if_pos h3, if_pos (by omega)]
          have hmono : Real.exp (-((now - occ' : ℤ) : ℝ) / 90) ≤
              Real.exp (-((now - occ : ℤ) : ℝ) / 90) := by
            rw [Real.exp_le_exp]
            have hc : ((now - occ : ℤ) : ℝ) ≤ ((now - occ' : ℤ) : ℝ) := by
              exact_mod_cast hd
            linarith
          nlinarith [hmono]
        · rw [if_neg h3]
          by_cases h4 : now - occ ≤ 90 * 2
          · rw [if_pos h4]
            have := Real.exp_pos (-((now - occ : ℤ) : ℝ) / 90)
            nlinarith
          · rw [if_neg h4]

/-- C7 witness: the boundary values 30, 100, 181 days and a monotone
pair. -/
theorem C7_witness :
    ((30 : ℤ) - 0 ≤ 30 ∧ recencyScore 30 0 = 30) ∧
    (30 < (100 : ℤ) - 0 ∧ (100 : ℤ) - 0 ≤ 180 ∧
      recencyScore 100 0 = 30 * Real.exp (-(((100 : ℤ) - 0 : ℤ) : ℝ) / 90)) ∧
    (180 < (181 : ℤ) - 0 ∧ recencyScore 181 0 = 0) ∧
    ((0 : ℤ) ≤ 5 ∧ recencyScore 200 0 ≤ recencyScore 200 5) :=
  ⟨⟨by decide, C7_recency_spec.1 30 0 (by decide)⟩,
   ⟨by decide, by decide, C7_recency_spec.2.1 100 0 (by decide) (by decide)⟩,
   ⟨by decide, C7_recency_spec.2.2.1 181 0 (by decide)⟩,
   ⟨by decide, C7_recency_spec.2.2.2 200 5 0 (by decide)⟩⟩


/-! ## Claim C9 — best-effort CSV import -/

theorem relCsv_fold_counts (P : CsvParse) (threshold : ℚ) :
    ∀ (rows : List RelRow) (st : Store) (res : CsvResults),
      (rows.foldl (relCsvStep P threshold) (st, res)).2.processed +
        (rows.foldl (relCsvStep P threshold) (st, res)).2.errors.length =
        res.processed + res.errors.length + rows.length ∧
      (rows.foldl (relCsvStep P threshold) (st, res)).2.created + res.processed =
        (rows.foldl (relCsvStep P threshold) (st, res)).2.processed + res.created := by
  intro rows
  induction rows with
  | nil =>
    intro st res
    rw [List.foldl_nil]
    dsimp only
    exact ⟨by simp, by omega⟩
  | cons row rest ih =>
    intro st res
    rw [List.foldl_cons]
    have hstep : relCsvStep P threshold (st, res) row =
        (match processSubRelRow P threshold st row with
         | (st', none) =>
           (st', { res with created := res.created + 1,
                            processed := res.processed + 1 })
         | (st', some e) =>
           (st', { res with errors := res.errors ++ [e] })) := rfl
    cases hpr : processSubRelRow P threshold st row with
    | mk st' eo =>
      cases eo with
      | none =>
        rw [hstep, hpr]
        obtain ⟨h1, h2⟩ := ih st' { res with created := res.created + 1,
                                             processed := res.processed + 1 }
        dsimp only at h1 h2 ⊢
        rw [List.length_cons]
        exact ⟨by omega, by omega⟩
      | some e =>
        rw [hstep, hpr]
        obtain ⟨h1, h2⟩ := ih st' { res with errors := res.errors ++ [e] }
        dsimp only at h1 h2 ⊢
        rw [List.length_cons]
        simp only [List.length_append, List.length_singleton] at h1
        exact ⟨by omega, by omega⟩

theorem aliasCsv_fold_counts (threshold : ℚ) :
    ∀ (arows : List AliasRow) (st : Store) (res : CsvResults),
      (arows.foldl (aliasCsvStep threshold) (st, res)).2.errors = res.errors ∧
      (arows.foldl (aliasCsvStep threshold) (st, res)).2.processed +
        arows.countP (fun row => !(truthy row.canonicalName && truthy row.aliasName)) =
        res.processed + arows.length ∧
      (arows.foldl (aliasCsvStep threshold) (st, res)).2.created + res.processed =
        (arows.foldl (aliasCsvStep threshold) (st, res)).2.processed + res.created := by
  intro arows
  induction arows with
  | nil =>
    intro st res
    rw [List.foldl_nil]
    dsimp only
    refine ⟨rfl, by simp, by omega⟩
  | cons row rest ih =>
    intro st res
    rw [List.foldl_cons]
    have hstep : aliasCsvStep threshold (st, res) row =
        (match processAliasRow threshold st row with
         | (st', true) =>
           (st', { res with created := res.created + 1,
                            processed := res.processed + 1 })
         | (st', false) => (st', res)) := rfl
    by_cases hrow : (truthy row.canonicalName && truthy row.aliasName) = true
    · have hpr : (processAliasRow threshold st row).2 = true := by
        rw [processAliasRow, if_pos hrow]
      cases hpr2 : processAliasRow threshold st row with
      | mk st' b =>
        rw [hpr2] at hpr
        dsimp only at hpr
        subst hpr
        rw [hstep, hpr2]
        obtain ⟨h1, h2, h3⟩ := ih st' { res with created := res.created + 1,
                                                 processed := res.processed + 1 }
        dsimp only at h1 h2 h3 ⊢
        refine ⟨h1, ?_, ?_⟩
        · rw [List.countP_cons, List.length_cons]
          have hb : (!(truthy row.canonicalName && truthy row.aliasName)) = false := by
            simp [hrow]
          simp only [hb, Bool.false_eq_true, if_false]
          omega
        · omega
    · have hpr2 : processAliasRow threshold st row = (st, false) := by
        rw [processAliasRow, if_neg hrow]
      rw [hstep, hpr2]
      obtain ⟨h1, h2, h3⟩ := ih st res
      refine ⟨h1, ?_, h3⟩
      rw [List.countP_cons, List.length_cons]
      have hb0 : (truthy row.canonicalName && truthy row.aliasName) = false :=
        Bool.eq_false_iff.mpr hrow
      have hb : (!(truthy row.canonicalName && truthy row.aliasName)) = true := by
        rw [hb0]; rfl
      simp only [hb, if_true]
      omega

/-- C9 counterexample: an alias row whose `alias` column is missing is a
malformed row (missing required field), yet the import returns an empty
error list — the row is skipped silently —, creates nothing, and leaves
the store unchanged. -/
theorem C9_missing_alias_field_not_recorded :
    (processCompanyAliasesCsv 85 {}
      [{ canonicalName := some "Acme", aliasName := none }]).2 =
      ({ processed := 0, created := 0, errors := [] } : CsvResults) ∧
    (processCompanyAliasesCsv 85 {}
      [{ canonicalName := some "Acme", aliasName := none }]).1.aliases = [] ∧
    (processCompanyAliasesCsv 85 {}
      [{ canonicalName := some "Acme", aliasName := none }]).1.companies = [] := by
  decide

/-- C9 (amended): both bulk importers are total and account for every
row — nothing aborts the batch.  In the relationship importer every row
either raises (appending exactly one row-level error) or is processed,
and `created` tracks `processed`.  In the alias importer nothing can
raise, so the error list stays empty; rows with a missing canonical name
or alias are skipped silently — not recorded as errors — and a row with
a falsy alias field creates no alias and leaves the store untouched. -/
theorem C9_csv_import_accounting (P : CsvParse) (threshold : ℚ) (st : Store)
    (rows : List RelRow) (arows : List AliasRow) :
    ((processSubRelationshipsCsv P threshold st rows).2.processed +
      (processSubRelationshipsCsv P threshold st rows).2.errors.length = rows.length ∧
     (processSubRelationshipsCsv P threshold st rows).2.created =
      (processSubRelationshipsCsv P threshold st rows).2.processed) ∧
    ((processCompanyAliasesCsv threshold st arows).2.errors = [] ∧
     (processCompanyAliasesCsv threshold st arows).2.processed +
      arows.countP (fun row => !(truthy row.canonicalName && truthy row.aliasName)) =
      arows.length ∧
     (processCompanyAliasesCsv threshold st arows).2.created =
      (processCompanyAliasesCsv threshold st arows).2.processed) ∧
    (∀ (st' : Store) (row : AliasRow), truthy row.aliasName = false →
      processAliasRow threshold st' row = (st', false)) := by
  refine ⟨?_, ?_, ?_⟩
  · obtain ⟨h1, h2⟩ := relCsv_fold_counts P threshold rows st {}
    constructor
    · simpa using h1
    · simpa using h2
  · obtain ⟨h1, h2, h3⟩ := aliasCsv_fold_counts threshold arows st {}
    refine ⟨by simpa using h1, by simpa using h2, by simpa using h3⟩
  · intro st' row hrow
    rw [processAliasRow, if_neg (by simp [hrow])]

/-- C9 witness: a batch with one well-formed alias row and one row with
a missing alias field; the malformed row is skipped without an error. -/
theorem C9_witness :
    (truthy (({ canonicalName := some "Acme", aliasName := none } : AliasRow)).aliasName
      = false) ∧
    processAliasRow 85 {} { canonicalName := some "Acme", aliasName := none } =
      ({}, false) :=
  ⟨by decide,
   (C9_csv_import_accounting { parseFloat := fun _ => none, parseDate := fun _ => none }
     85 {} [] []).2.2 {} { canonicalName := some "Acme", aliasName := none } (by decide)⟩

/-! ## Correspondence between the nested rebuild loop and the flat fold -/

theorem calc_congr {st st' : Store} (h : FieldsEq st st') (now : ℤ)
    (company : CompanyR) (e : EventR) :
    calculatePropensityScore st now company e =
      calculatePropensityScore st' now company e := by
  obtain ⟨h1, h2, h3, h4⟩ := h
  have hf : frequencyScore st now e = frequencyScore st' now e := by
    rw [frequencyScore, frequencyScore, h3]
  have hi : itaScore st e = itaScore st' e := by
    rw [itaScore, itaScore, h4, h1]
  have ht : tradeRiskScore st e = tradeRiskScore st' e := by
    rw [tradeRiskScore, tradeRiskScore, h2]
  have hr : relationshipScore st company e = relationshipScore st' company e := by
    rw [relationshipScore, relationshipScore, h2]
  rw [calculatePropensityScore, calculatePropensityScore, hf, hi, ht, hr]

theorem setOpps_self (st : Store) : setOpps st st.opportunities = st := rfl

theorem setOpps_setOpps (st : Store) (o o' : List OppR) :
    setOpps (setOpps st o) o' = setOpps st o' := rfl

theorem FieldsEq_setOpps (st : Store) (o : List OppR) :
    FieldsEq (setOpps st o) st :=
  ⟨rfl, rfl, rfl, rfl⟩

theorem FieldsEq_refl (st : Store) : FieldsEq st st := ⟨rfl, rfl, rfl, rfl⟩

theorem upsertTarget_corr (st₀ : Store) (now : ℤ) (e : EventR) (r : RelR)
    (acc : Store × RebuildResults) (cido : Option ℕ) (hF : FieldsEq acc.1 st₀) :
    upsertTarget now e r acc cido =
      (setOpps acc.1 (((targets3 st₀ cido).map (fun p => (e, r, p.1, p.2))).foldl
         (upsertStep st₀ now) (acc.1.opportunities, acc.2)).1,
       (((targets3 st₀ cido).map (fun p => (e, r, p.1, p.2))).foldl
         (upsertStep st₀ now) (acc.1.opportunities, acc.2)).2) := by
  cases cido with
  | none =>
    show acc = _
    rw [targets3]
    simp only [List.map_nil, List.foldl_nil]
    rw [setOpps_self]
  | some cid =>
    have hcomps : acc.1.companies = st₀.companies := hF.1
    rw [upsertTarget]
    rw [targets3, hcomps]
    cases hcomp : st₀.companies.find? (fun c => c.id == cid) with
    | none =>
      simp only [List.map_nil, List.foldl_nil]
      rw [setOpps_self]
    | some comp =>
      simp only [List.map_cons, List.map_nil, List.foldl_cons, List.foldl_nil]
      rw [calc_congr hF now comp e]
      rw [upsertStep]
      by_cases hsc : (30 : ℝ) ≤ (calculatePropensityScore st₀ now comp e).1
      · rw [if_pos hsc, if_pos hsc]
        by_cases hex : (acc.1.opportunities.find? (oppMatches r cid e.id)).isSome
        · rw [if_pos hex, if_pos hex]
          rfl
        · rw [if_neg hex, if_neg hex]
          rfl
      · rw [if_neg hsc, if_neg hsc]
        rw [setOpps_self]

theorem foldl_corr (st₀ : Store) (now : ℤ) {α : Type}
    (F : (Store × RebuildResults) → α → (Store × RebuildResults))
    (itemsOf : α → List (EventR × RelR × ℕ × CompanyR))
    (hF : ∀ acc x, FieldsEq acc.1 st₀ →
      F acc x = (setOpps acc.1 ((itemsOf x).foldl (upsertStep st₀ now)
          (acc.1.opportunities, acc.2)).1,
        ((itemsOf x).foldl (upsertStep st₀ now) (acc.1.opportunities, acc.2)).2)) :
    ∀ (xs : List α) (acc : Store × RebuildResults), FieldsEq acc.1 st₀ →
      xs.foldl F acc = (setOpps acc.1 ((xs.flatMap itemsOf).foldl (upsertStep st₀ now)
          (acc.1.opportunities, acc.2)).1,
        ((xs.flatMap itemsOf).foldl (upsertStep st₀ now) (acc.1.opportunities, acc.2)).2) := by
  intro xs
  induction xs with
  | nil =>
    intro acc hacc
    simp only [List.foldl_nil, List.flatMap_nil]
    rw [setOpps_self]
  | cons x t ih =>
    intro acc hacc
    rw [List.foldl_cons, List.flatMap_cons, List.foldl_append]
    have hx := hF acc x hacc
    have hfe : FieldsEq (F acc x).1 st₀ := by
      rw [hx]
      exact ⟨hacc.1, hacc.2.1, hacc.2.2.1, hacc.2.2.2⟩
    rw [ih (F acc x) hfe, hx]
    simp only [setOpps_setOpps]
    rfl

theorem processRelationship_corr (st₀ : Store) (now : ℤ) (e : EventR)
    (acc : Store × RebuildResults) (r : RelR) (hF : FieldsEq acc.1 st₀) :
    processRelationship now e acc r =
      (setOpps acc.1 (((relTargets st₀ r).map (fun p => (e, r, p.1, p.2))).foldl
         (upsertStep st₀ now) (acc.1.opportunities, acc.2)).1,
       (((relTargets st₀ r).map (fun p => (e, r, p.1, p.2))).foldl
         (upsertStep st₀ now) (acc.1.opportunities, acc.2)).2) := by
  have h := foldl_corr st₀ now (upsertTarget now e r)
    (fun cido => (targets3 st₀ cido).map (fun p => (e, r, p.1, p.2)))
    (fun acc x hacc => upsertTarget_corr st₀ now e r acc x hacc)
    [r.gcId, r.ownerId] acc hF
  rw [processRelationship, h]
  have hl : ([r.gcId, r.ownerId].flatMap
      (fun cido => (targets3 st₀ cido).map (fun p => (e, r, p.1, p.2)))) =
      (relTargets st₀ r).map (fun p => (e, r, p.1, p.2)) := by
    simp [relTargets]
  rw [hl]

theorem processEvent_corr (st₀ : Store) (now : ℤ)
    (acc : Store × RebuildResults) (e : EventR) (hF : FieldsEq acc.1 st₀) :
    processEvent now acc e =
      (setOpps acc.1 (((st₀.relationships.filter (fun r => r.subId == e.companyId)).flatMap
          (fun r => (relTargets st₀ r).map (fun p => (e, r, p.1, p.2)))).foldl
         (upsertStep st₀ now) (acc.1.opportunities, acc.2)).1,
       (((st₀.relationships.filter (fun r => r.subId == e.companyId)).flatMap
          (fun r => (relTargets st₀ r).map (fun p => (e, r, p.1, p.2)))).foldl
         (upsertStep st₀ now) (acc.1.opportunities, acc.2)).2) := by
  have h := foldl_corr st₀ now (processRelationship now e)
    (fun r => (relTargets st₀ r).map (fun p => (e, r, p.1, p.2)))
    (fun acc x hacc => processRelationship_corr st₀ now e acc x hacc)
    (st₀.relationships.filter (fun r => r.subId == e.companyId)) acc hF
  rw [processEvent, hF.2.1, h]

theorem rebuild_eq_flat (st : Store) (now : ℤ) (since upto : Option ℤ) :
    rebuildOpportunities st now since upto =
      (setOpps st (((rebuildItems st since upto).foldl (upsertStep st now)
          (st.opportunities, ({} : RebuildResults))).1),
       ((rebuildItems st since upto).foldl (upsertStep st now)
          (st.opportunities, ({} : RebuildResults))).2) := by
  have h := foldl_corr st now (processEvent now)
    (fun e => (st.relationships.filter (fun r => r.subId == e.companyId)).flatMap
      (fun r => (relTargets st r).map (fun p => (e, r, p.1, p.2))))
    (fun acc x hacc => processEvent_corr st now acc x hacc)
    (selectedEvents st since upto) (st, {}) (FieldsEq_refl st)
  rw [rebuildOpportunities, h, rebuildItems]

theorem mem_updateFirst {α : Type} {q : α → Bool} {f : α → α} :
    ∀ {l : List α} {o : α}, o ∈ updateFirst q f l →
      o ∈ l ∨ ∃ x ∈ l, q x = true ∧ o = f x := by
  intro l
  induction l with
  | nil => intro o ho; exact absurd ho (List.not_mem_nil o)
  | cons x t ih =>
    intro o ho
    rw [updateFirst] at ho
    by_cases hq : q x = true
    · rw [if_pos hq] at ho
      rcases List.mem_cons.mp ho with h | h
      · exact Or.inr ⟨x, List.mem_cons_self x t, hq, h⟩
      · exact Or.inl (List.mem_cons_of_mem x h)
    · rw [if_neg hq] at ho
      rcases List.mem_cons.mp ho with h | h
      · exact Or.inl (h ▸ List.mem_cons_self x t)
      · rcases ih h with h' | ⟨y, hy, hqy, hoy⟩
        · exact Or.inl (List.mem_cons_of_mem x h')
        · exact Or.inr ⟨y, List.mem_cons_of_mem x hy, hqy, hoy⟩

theorem countP_updateFirst {α : Type} (p q : α → Bool) (f : α → α)
    (hf : ∀ a, p (f a) = p a) :
    ∀ l : List α, (updateFirst q f l).countP p = l.countP p := by
  intro l
  induction l with
  | nil => rfl
  | cons x t ih =>
    rw [updateFirst]
    split
    · rw [List.countP_cons, List.countP_cons, hf]
    · rw [List.countP_cons, List.countP_cons, ih]

theorem any_updateFirst {α : Type} (p q : α → Bool) (f : α → α)
    (hf : ∀ a, p (f a) = p a) :
    ∀ l : List α, (updateFirst q f l).any p = l.any p := by
  intro l
  induction l with
  | nil => rfl
  | cons x t ih =>
    rw [updateFirst]
    split
    · rw [List.any_cons, List.any_cons, hf]
    · rw [List.any_cons, List.any_cons, ih]

theorem updateFirst_eq_self {α : Type} {q : α → Bool} {f : α → α} :
    ∀ {l : List α}, (∀ x ∈ l, q x = true → f x = x) → updateFirst q f l = l := by
  intro l
  induction l with
  | nil => intro _; rfl
  | cons x t ih =>
    intro h
    rw [updateFirst]
    by_cases hq : q x = true
    · rw [if_pos hq, h x (List.mem_cons_self x t) hq]
    · rw [if_neg hq, ih (fun y hy => h y (List.mem_cons_of_mem x hy))]

theorem ex_recency : recencyScore 0 exEvent.occurredOn = 30 := by
  show recencyScore 0 0 = 30
  rw [recencyScore]
  norm_num

theorem ex_severity : severityScoreData exEvent.data = 5 := by decide

theorem ex_frequency : frequencyScore exStore 0 exEvent = 0 := by decide

theorem ex_ita : itaScore exStore exEvent = 0 := by decide

theorem ex_trade : tradeRiskScore exStore exEvent = 0 := by decide

theorem ex_relationship : relationshipScore exStore exGc exEvent = 5 := by decide

theorem ex_news : newsScore exEvent = 0 := by decide

theorem ex_talk : determineTalkTrack 5 0 0 = "Compliance gap assessment" := by decide

theorem ex_score : (calculatePropensityScore exStore 0 exGc exEvent).1 = 40 := by
  simp only [calculatePropensityScore]
  rw [ex_recency, ex_severity, ex_frequency, ex_ita, ex_trade, ex_relationship,
    ex_news]
  norm_num [min_def]

theorem ex_track :
    (calculatePropensityScore exStore 0 exGc exEvent).2.2 =
      "Compliance gap assessment" := by
  simp only [calculatePropensityScore]
  rw [ex_severity, ex_frequency, ex_ita]
  exact ex_talk

theorem ex_items : rebuildItems exStore none none =
    [(exEvent, exRelGc, 1, exGc), (exEvent, exRelOwner, 1, exGc)] := by
  decide

theorem ex_step1 :
    upsertStep exStore 0 (([] : List OppR), ({} : RebuildResults))
      (exEvent, exRelGc, 1, exGc) =
    ([{ gcId := some 1, ownerId := none, driverEventId := 1,
        propensityScore := 40, confidence := 4/5,
        recommendedTalkTrack := "Compliance gap assessment" }],
     { created := 1, updated := 0, errors := [] }) := by
  simp only [upsertStep]
  rw [ex_score, ex_track]
  rw [if_pos (by norm_num : (30 : ℝ) ≤ 40)]
  rfl

theorem ex_step2 :
    upsertStep exStore 0
      ([{ gcId := some 1, ownerId := none, driverEventId := 1,
          propensityScore := 40, confidence := 4/5,
          recommendedTalkTrack := "Compliance gap assessment" }],
       { created := 1, updated := 0, errors := [] })
      (exEvent, exRelOwner, 1, exGc) =
    ([{ gcId := some 1, ownerId := none, driverEventId := 1,
        propensityScore := 40, confidence := 4/5,
        recommendedTalkTrack := "Compliance gap assessment" },
      { gcId := none, ownerId := some 1, driverEventId := 1,
        propensityScore := 40, confidence := 4/5,
        recommendedTalkTrack := "Compliance gap assessment" }],
     { created := 2, updated := 0, errors := [] }) := by
  simp only [upsertStep]
  rw [ex_score, ex_track]
  rw [if_pos (by norm_num : (30 : ℝ) ≤ 40)]
  rfl

theorem ex_flat :
    (rebuildItems exStore none none).foldl (upsertStep exStore 0)
      (([] : List OppR), ({} : RebuildResults)) =
    ([{ gcId := some 1, ownerId := none, driverEventId := 1,
        propensityScore := 40, confidence := 4/5,
        recommendedTalkTrack := "Compliance gap assessment" },
      { gcId := none, ownerId := some 1, driverEventId := 1,
        propensityScore := 40, confidence := 4/5,
        recommendedTalkTrack := "Compliance gap assessment" }],
     { created := 2, updated := 0, errors := [] }) := by
  rw [ex_items, List.foldl_cons, ex_step1, List.foldl_cons, ex_step2,
    List.foldl_nil]

/-- C1 (counterexample): in `exStore` the company with id 1 is referenced
as GC by one `SubRelationship` and as owner by another `SubRelationship`
of the same subcontractor; a single `rebuild_opportunities` call over the
one driver event then leaves two `TargetOpportunity` records keyed by the
pair (company 1, event 1) — one holding the company in `gc_id`, one in
`owner_id` — refuting "at most one record per (target company, driver
incident) pair". -/
theorem C1_two_records_for_one_pair :
    ((rebuildOpportunities exStore 0 none none).1.opportunities.countP
      (targetKey 1 1)) = 2 ∧
    (rebuildOpportunities exStore 0 none none).2.created = 2 := by
  rw [rebuild_eq_flat]
  dsimp only [setOpps]
  constructor
  · show (((rebuildItems exStore none none).foldl (upsertStep exStore 0)
        (([] : List OppR), ({} : RebuildResults))).1.countP (targetKey 1 1)) = 2
    rw [ex_flat]
    rfl
  · show ((rebuildItems exStore none none).foldl (upsertStep exStore 0)
        (([] : List OppR), ({} : RebuildResults))).2.created = 2
    rw [ex_flat]

theorem upsertStep_gcUnique (st₀ : Store) (now : ℤ)
    (acc : List OppR × RebuildResults) (item : EventR × RelR × ℕ × CompanyR)
    (h : GcUnique acc.1) : GcUnique (upsertStep st₀ now acc item).1 := by
  intro cid eid
  simp only [upsertStep]
  split
  · split
    · next hnf =>
      dsimp only
      have hcp := countP_updateFirst (gcKey cid eid)
        (oppMatches item.2.1 item.2.2.1 item.1.id)
        (fun o => { o with
          propensityScore := (calculatePropensityScore st₀ now
            item.2.2.2 item.1).1,
          recommendedTalkTrack := (calculatePropensityScore st₀ now
            item.2.2.2 item.1).2.2 })
        (fun o => rfl) acc.1
      rw [hcp]
      exact h cid eid
    · next hnf =>
      dsimp only
      rw [List.countP_append, List.countP_cons, List.countP_nil]
      rcases Bool.eq_false_or_eq_true (gcKey cid eid
        { gcId := if item.2.1.gcId == some item.2.2.1 then
            some item.2.2.1 else none,
          ownerId := if item.2.1.ownerId == some item.2.2.1 then
            some item.2.2.1 else none,
          driverEventId := item.1.id,
          propensityScore := (calculatePropensityScore st₀ now
            item.2.2.2 item.1).1,
          confidence := 4/5,
          recommendedTalkTrack := (calculatePropensityScore st₀ now
            item.2.2.2 item.1).2.2 }) with hk0 | hk0
      · have hk := hk0
        unfold gcKey at hk
        dsimp only at hk
        rw [Bool.and_eq_true] at hk
        obtain ⟨hk1, hk2⟩ := hk
        have heid : item.1.id = eid := by simpa using hk2
        by_cases hgc : (item.2.1.gcId == some item.2.2.1) = true
        · rw [if_pos hgc] at hk1
          have hcid : item.2.2.1 = cid := by simpa using hk1
          have h0 : acc.1.countP (gcKey cid eid) = 0 := by
            rw [List.countP_eq_zero]
            intro o ho hko
            refine List.find?_eq_none.mp
              (Option.not_isSome_iff_eq_none.mp (by simpa using hnf)) o ho ?_
            unfold oppMatches
            unfold gcKey at hko
            rw [Bool.and_eq_true] at hko
            obtain ⟨hog, hoe⟩ := hko
            have hgc' : (item.2.1.gcId == some item.2.2.1) = true := hgc
            rw [hcid] at hgc'
            rw [hcid, heid, if_pos hgc']
            rw [Bool.and_eq_true]
            exact ⟨hog, hoe⟩
          rw [h0, hk0]
          simp
        · rw [if_neg hgc] at hk1
          simp at hk1
      · have h1 := h cid eid
        simp only [hk0, Bool.false_eq_true, if_false]
        omega
  · exact h cid eid

theorem foldl_gcUnique (st₀ : Store) (now : ℤ) :
    ∀ (items : List (EventR × RelR × ℕ × CompanyR))
      (acc : List OppR × RebuildResults), GcUnique acc.1 →
      GcUnique (items.foldl (upsertStep st₀ now) acc).1 := by
  intro items
  induction items with
  | nil => intro acc h; exact h
  | cons it t ih =>
    intro acc h
    rw [List.foldl_cons]
    exact ih _ (upsertStep_gcUnique st₀ now acc it h)

/-- C1 (amended): what the upsert lookup actually guarantees is per-column
uniqueness on the `gc_id` side: if no two records share a
`(gc_id, driver_event_id)` key before a rebuild, none do afterwards — the
lookup that guards insertion of a record carrying `gc_id = cid` tests
exactly that key.  (The owner column enjoys no such guarantee across
roles, as the counterexample shows.) -/
theorem C1_gc_uniqueness_preserved (st : Store) (now : ℤ)
    (since upto : Option ℤ) (h : GcUnique st.opportunities) :
    GcUnique (rebuildOpportunities st now since upto).1.opportunities := by
  rw [rebuild_eq_flat]
  dsimp only [setOpps]
  exact foldl_gcUnique st now _ _ h

theorem C1_witness :
    GcUnique ((rebuildOpportunities exStore 0 none none).1.opportunities) :=
  C1_gc_uniqueness_preserved exStore 0 none none
    (fun cid eid => Nat.zero_le 1)

theorem mem_targets3 {st : Store} {cido : Option ℕ} {p : ℕ × CompanyR}
    (hp : p ∈ targets3 st cido) :
    cido = some p.1 ∧ st.companies.find? (fun c => c.id == p.1) = some p.2 := by
  cases cido with
  | none => simp [targets3] at hp
  | some cid =>
    simp only [targets3] at hp
    rcases hfind : st.companies.find? (fun c => c.id == cid) with _ | comp
    · rw [hfind] at hp
      simp at hp
    · rw [hfind] at hp
      simp only [List.mem_singleton] at hp
      subst hp
      exact ⟨rfl, hfind⟩

theorem rebuildItems_wf (st : Store) (since upto : Option ℤ) :
    ∀ it ∈ rebuildItems st since upto, ItemWF st it := by
  intro it hit
  simp only [rebuildItems, List.mem_flatMap, List.mem_map] at hit
  obtain ⟨e, he, r, hr, p, hp, rfl⟩ := hit
  have hp' := List.mem_append.mp (by simpa [relTargets] using hp)
  refine ⟨?_, ?_, ?_⟩
  · rcases hp' with h1 | h1
    · exact Or.inl (mem_targets3 h1).1
    · exact Or.inr (mem_targets3 h1).1
  · rcases hp' with h1 | h1
    · exact (mem_targets3 h1).2
    · exact (mem_targets3 h1).2
  · simp only [selectedEvents] at he
    have he' := (List.perm_insertionSort byOccurredDesc _).mem_iff.mp he
    exact (List.mem_filter.mp he').1

theorem key_det {st : Store} (hu : EventIdsUnique st)
    {it it' : EventR × RelR × ℕ × CompanyR}
    (h1 : ItemWF st it) (h2 : ItemWF st it') {o : OppR}
    (ho : ∀ c1 c2 : ℕ, o.gcId = some c1 → o.ownerId = some c2 → c1 = c2)
    (hk : oppMatches it.2.1 it.2.2.1 it.1.id o = true)
    (hk' : oppMatches it'.2.1 it'.2.2.1 it'.1.id o = true) :
    it.1 = it'.1 ∧ it.2.2.1 = it'.2.2.1 ∧ it.2.2.2 = it'.2.2.2 := by
  unfold oppMatches at hk hk'
  rw [Bool.and_eq_true] at hk hk'
  obtain ⟨hs1, hd1⟩ := hk
  obtain ⟨hs2, hd2⟩ := hk'
  have hd1' : o.driverEventId = it.1.id := by simpa using hd1
  have hd2' : o.driverEventId = it'.1.id := by simpa using hd2
  have hslot : ∀ {r : RelR} {cid : ℕ},
      (if (r.gcId == some cid) = true then o.gcId == some cid
        else o.ownerId == some cid) = true →
      o.gcId = some cid ∨ o.ownerId = some cid := by
    intro r cid hs
    by_cases hg : (r.gcId == some cid) = true
    · rw [if_pos hg] at hs
      exact Or.inl (by simpa using hs)
    · rw [if_neg hg] at hs
      exact Or.inr (by simpa using hs)
  have hcid : it.2.2.1 = it'.2.2.1 := by
    rcases hslot hs1 with ha | ha <;> rcases hslot hs2 with hb | hb
    · rw [ha] at hb; exact Option.some.inj hb
    · exact ho _ _ ha hb
    · exact (ho _ _ hb ha).symm
    · rw [ha] at hb; exact Option.some.inj hb
  have hev : it.1 = it'.1 :=
    hu it.1 h1.2.2 it'.1 h2.2.2 (by rw [← hd1']; exact hd2')
  refine ⟨hev, hcid, ?_⟩
  have hf := h1.2.1
  rw [hcid, h2.2.1] at hf
  exact (Option.some.inj hf).symm

theorem find?_isSome_eq_any {α : Type} (p : α → Bool) :
    ∀ l : List α, (l.find? p).isSome = l.any p := by
  intro l
  induction l with
  | nil => rfl
  | cons x t ih =>
    rw [List.find?_cons, List.any_cons]
    cases hp : p x
    · simpa using ih
    · rfl

theorem createdRec_key (st₀ : Store) (now : ℤ)
    (item : EventR × RelR × ℕ × CompanyR)
    (hwf : item.2.1.gcId = some item.2.2.1 ∨
      item.2.1.ownerId = some item.2.2.1) :
    oppMatches item.2.1 item.2.2.1 item.1.id
      { gcId := if item.2.1.gcId == some item.2.2.1 then
          some item.2.2.1 else none,
        ownerId := if item.2.1.ownerId == some item.2.2.1 then
          some item.2.2.1 else none,
        driverEventId := item.1.id,
        propensityScore := (calculatePropensityScore st₀ now
          item.2.2.2 item.1).1,
        confidence := 4/5,
        recommendedTalkTrack := (calculatePropensityScore st₀ now
          item.2.2.2 item.1).2.2 } = true := by
  unfold oppMatches
  dsimp only
  rw [Bool.and_eq_true]
  constructor
  · by_cases hg : (item.2.1.gcId == some item.2.2.1) = true
    · rw [if_pos hg, if_pos hg]
      simp
    · rw [if_neg hg]
      rcases hwf with hslot | hslot
      · exact absurd (by rw [hslot]; simp :
          (item.2.1.gcId == some item.2.2.1) = true) hg
      · rw [if_pos (by rw [hslot]; simp :
          (item.2.1.ownerId == some item.2.2.1) = true)]
        simp
  · simp

theorem createdRec_recWF (st₀ : Store) (now : ℤ)
    (item : EventR × RelR × ℕ × CompanyR) :
    ∀ c1 c2 : ℕ,
      ({ gcId := if item.2.1.gcId == some item.2.2.1 then
           some item.2.2.1 else none,
         ownerId := if item.2.1.ownerId == some item.2.2.1 then
           some item.2.2.1 else none,
         driverEventId := item.1.id,
         propensityScore := (calculatePropensityScore st₀ now
           item.2.2.2 item.1).1,
         confidence := 4/5,
         recommendedTalkTrack := (calculatePropensityScore st₀ now
           item.2.2.2 item.1).2.2 } : OppR).gcId = some c1 →
      ({ gcId := if item.2.1.gcId == some item.2.2.1 then
           some item.2.2.1 else none,
         ownerId := if item.2.1.ownerId == some item.2.2.1 then
           some item.2.2.1 else none,
         driverEventId := item.1.id,
         propensityScore := (calculatePropensityScore st₀ now
           item.2.2.2 item.1).1,
         confidence := 4/5,
         recommendedTalkTrack := (calculatePropensityScore st₀ now
           item.2.2.2 item.1).2.2 } : OppR).ownerId = some c2 → c1 = c2 := by
  intro c1 c2 hg hw
  dsimp only at hg hw
  split at hg
  · split at hw
    · rw [← Option.some.inj hg, ← Option.some.inj hw]
    · exact absurd hw (by simp)
  · exact absurd hg (by simp)

theorem upsertStep_recWF (st₀ : Store) (now : ℤ)
    (acc : List OppR × RebuildResults) (item : EventR × RelR × ℕ × CompanyR)
    (hR : RecWF acc.1) : RecWF (upsertStep st₀ now acc item).1 := by
  simp only [upsertStep]
  split
  · split
    · dsimp only
      intro o ho
      rcases mem_updateFirst ho with h | ⟨x, hx, _, rfl⟩
      · exact hR o h
      · intro c1 c2 hg hw
        exact hR x hx c1 c2 hg hw
    · dsimp only
      intro o ho
      rcases List.mem_append.mp ho with h | h
      · exact hR o h
      · rw [List.mem_singleton] at h
        subst h
        exact createdRec_recWF st₀ now item
  · exact hR

theorem upsertStep_coh (st₀ : Store) (now : ℤ) (hu : EventIdsUnique st₀)
    {items : List (EventR × RelR × ℕ × CompanyR)}
    (hWF : ∀ it ∈ items, ItemWF st₀ it)
    (acc : List OppR × RebuildResults)
    {item : EventR × RelR × ℕ × CompanyR} (hitem : item ∈ items)
    (hR : RecWF acc.1) (hC : Coh st₀ now items acc.1) :
    Coh st₀ now items (upsertStep st₀ now acc item).1 := by
  simp only [upsertStep]
  split
  · split
    · dsimp only
      intro o ho it hit hk
      rcases mem_updateFirst ho with h | ⟨x, hx, hqx, rfl⟩
      · exact hC o h it hit hk
      · have hkx : oppMatches it.2.1 it.2.2.1 it.1.id x = true := hk
        obtain ⟨he, _, hc⟩ :=
          key_det hu (hWF it hit) (hWF item hitem) (hR x hx) hkx hqx
        constructor
        · dsimp only
          rw [← he, ← hc]
        · dsimp only
          rw [← he, ← hc]
    · dsimp only
      intro o ho it hit hk
      rcases List.mem_append.mp ho with h | h
      · exact hC o h it hit hk
      · rw [List.mem_singleton] at h
        subst h
        obtain ⟨he, _, hc⟩ :=
          key_det hu (hWF it hit) (hWF item hitem)
            (createdRec_recWF st₀ now item) hk
            (createdRec_key st₀ now item (hWF item hitem).1)
        constructor
        · dsimp only
          rw [← he, ← hc]
        · dsimp only
          rw [← he, ← hc]
  · exact hC

theorem upsertStep_found (st₀ : Store) (now : ℤ)
    (acc : List OppR × RebuildResults)
    (item it : EventR × RelR × ℕ × CompanyR)
    (h : (acc.1.find? (oppMatches it.2.1 it.2.2.1 it.1.id)).isSome = true) :
    ((upsertStep st₀ now acc item).1.find?
      (oppMatches it.2.1 it.2.2.1 it.1.id)).isSome = true := by
  rw [find?_isSome_eq_any] at h ⊢
  simp only [upsertStep]
  split
  · split
    · dsimp only
      rw [any_updateFirst (oppMatches it.2.1 it.2.2.1 it.1.id)
        (oppMatches item.2.1 item.2.2.1 item.1.id)
        (fun o => { o with
          propensityScore := (calculatePropensityScore st₀ now
            item.2.2.2 item.1).1,
          recommendedTalkTrack := (calculatePropensityScore st₀ now
            item.2.2.2 item.1).2.2 })
        (fun o => rfl) acc.1]
      exact h
    · dsimp only
      rw [List.any_append, h, Bool.true_or]
  · exact h

theorem upsertStep_self_found (st₀ : Store) (now : ℤ)
    (acc : List OppR × RebuildResults)
    (item : EventR × RelR × ℕ × CompanyR)
    (hwf : item.2.1.gcId = some item.2.2.1 ∨
      item.2.1.ownerId = some item.2.2.1)
    (h30 : 30 ≤ (calculatePropensityScore st₀ now item.2.2.2 item.1).1) :
    ((upsertStep st₀ now acc item).1.find?
      (oppMatches item.2.1 item.2.2.1 item.1.id)).isSome = true := by
  simp only [upsertStep]
  rw [if_pos h30]
  split
  · next hfound =>
    dsimp only
    rw [find?_isSome_eq_any]
    rw [any_updateFirst (oppMatches item.2.1 item.2.2.1 item.1.id)
      (oppMatches item.2.1 item.2.2.1 item.1.id)
      (fun o => { o with
        propensityScore := (calculatePropensityScore st₀ now
          item.2.2.2 item.1).1,
        recommendedTalkTrack := (calculatePropensityScore st₀ now
          item.2.2.2 item.1).2.2 })
      (fun o => rfl) acc.1]
    rw [← find?_isSome_eq_any]
    exact hfound
  · dsimp only
    rw [find?_isSome_eq_any, List.any_append, List.any_cons, List.any_nil,
      createdRec_key st₀ now item hwf]
    simp

theorem run1_fold (st₀ : Store) (now : ℤ) (hu : EventIdsUnique st₀)
    {items : List (EventR × RelR × ℕ × CompanyR)}
    (hWF : ∀ it ∈ items, ItemWF st₀ it) :
    ∀ (todo : List (EventR × RelR × ℕ × CompanyR)),
      (∀ it ∈ todo, it ∈ items) →
      ∀ (acc : List OppR × RebuildResults),
        RecWF acc.1 → Coh st₀ now items acc.1 →
      RecWF (todo.foldl (upsertStep st₀ now) acc).1 ∧
      Coh st₀ now items (todo.foldl (upsertStep st₀ now) acc).1 ∧
      (∀ it : EventR × RelR × ℕ × CompanyR,
        (acc.1.find? (oppMatches it.2.1 it.2.2.1 it.1.id)).isSome = true →
        ((todo.foldl (upsertStep st₀ now) acc).1.find?
          (oppMatches it.2.1 it.2.2.1 it.1.id)).isSome = true) ∧
      (∀ it ∈ todo, 30 ≤ (calculatePropensityScore st₀ now it.2.2.2 it.1).1 →
        ((todo.foldl (upsertStep st₀ now) acc).1.find?
          (oppMatches it.2.1 it.2.2.1 it.1.id)).isSome = true) := by
  intro todo
  induction todo with
  | nil =>
    intro _ acc hR hC
    exact ⟨hR, hC, fun it h => h, fun it h => absurd h (List.not_mem_nil it)⟩
  | cons it' t ih =>
    intro hsub acc hR hC
    rw [List.foldl_cons]
    have hit' : it' ∈ items := hsub it' (List.mem_cons_self it' t)
    have hR' := upsertStep_recWF st₀ now acc it' hR
    have hC' := upsertStep_coh st₀ now hu hWF acc hit' hR hC
    have hsub' : ∀ it ∈ t, it ∈ items :=
      fun it h => hsub it (List.mem_cons_of_mem it' h)
    obtain ⟨hR2, hC2, hmono, hsat⟩ :=
      ih hsub' (upsertStep st₀ now acc it') hR' hC'
    refine ⟨hR2, hC2, ?_, ?_⟩
    · intro it h
      exact hmono it (upsertStep_found st₀ now acc it' it h)
    · intro it hmem h30
      rcases List.mem_cons.mp hmem with rfl | hmem'
      · exact hmono it (upsertStep_self_found st₀ now acc it (hWF it hit').1 h30)
      · exact hsat it hmem' h30

theorem run2_fold (st₀ : Store) (now : ℤ)
    {items : List (EventR × RelR × ℕ × CompanyR)} (ops1 : List OppR)
    (hC : Coh st₀ now items ops1) (hS : Sat st₀ now items ops1) :
    ∀ (todo : List (EventR × RelR × ℕ × CompanyR)),
      (∀ it ∈ todo, it ∈ items) → ∀ res : RebuildResults,
      todo.foldl (upsertStep st₀ now) (ops1, res) =
        (ops1, { res with updated := res.updated + todo.countP (fun it =>
          decide (30 ≤ (calculatePropensityScore st₀ now it.2.2.2 it.1).1)) }) := by
  intro todo
  induction todo with
  | nil =>
    intro _ res
    simp only [List.foldl_nil, List.countP_nil, Nat.add_zero]
  | cons it' t ih =>
    intro hsub res
    have hit' : it' ∈ items := hsub it' (List.mem_cons_self it' t)
    have hsub' : ∀ it ∈ t, it ∈ items :=
      fun it h => hsub it (List.mem_cons_of_mem it' h)
    rw [List.foldl_cons]
    simp only [List.countP_cons]
    by_cases h30 : 30 ≤ (calculatePropensityScore st₀ now it'.2.2.2 it'.1).1
    · have hstep : upsertStep st₀ now (ops1, res) it' =
          (ops1, { res with updated := res.updated + 1 }) := by
        simp only [upsertStep]
        rw [if_pos h30, if_pos (hS it' hit' h30)]
        have hfix : ∀ o ∈ ops1,
            oppMatches it'.2.1 it'.2.2.1 it'.1.id o = true →
            (fun o => { o with
              propensityScore := (calculatePropensityScore st₀ now
                it'.2.2.2 it'.1).1,
              recommendedTalkTrack := (calculatePropensityScore st₀ now
                it'.2.2.2 it'.1).2.2 }) o = o := by
          intro o ho hk
          obtain ⟨hs, ht⟩ := hC o ho it' hit' hk
          dsimp only
          rw [← hs, ← ht]
        rw [updateFirst_eq_self hfix]
      rw [hstep, ih hsub' { res with updated := res.updated + 1 }]
      have hq := decide_eq_true h30
      simp only [Prod.mk.injEq, RebuildResults.mk.injEq, hq, if_true,
        eq_self_iff_true, true_and, and_true]
      omega
    · have hstep : upsertStep st₀ now (ops1, res) it' = (ops1, res) := by
        simp only [upsertStep]
        rw [if_neg h30]
      rw [hstep, ih hsub' res]
      have hq := decide_eq_false h30
      simp only [Prod.mk.injEq, RebuildResults.mk.injEq, hq,
        Bool.false_eq_true, if_false, eq_self_iff_true, true_and, and_true]
      omega

theorem run1_counts (st₀ : Store) (now : ℤ) :
    ∀ (todo : List (EventR × RelR × ℕ × CompanyR))
      (acc : List OppR × RebuildResults),
      (todo.foldl (upsertStep st₀ now) acc).2.created +
        (todo.foldl (upsertStep st₀ now) acc).2.updated =
      acc.2.created + acc.2.updated + todo.countP (fun it =>
        decide (30 ≤ (calculatePropensityScore st₀ now it.2.2.2 it.1).1)) := by
  intro todo
  induction todo with
  | nil => intro acc; simp
  | cons it' t ih =>
    intro acc
    rw [List.foldl_cons]
    simp only [List.countP_cons]
    by_cases h30 : 30 ≤ (calculatePropensityScore st₀ now it'.2.2.2 it'.1).1
    · have hstep : (upsertStep st₀ now acc it').2.created +
          (upsertStep st₀ now acc it').2.updated =
          acc.2.created + acc.2.updated + 1 := by
        simp only [upsertStep]
        rw [if_pos h30]
        split
        · try dsimp only
          omega
        · try dsimp only
          omega
      rw [ih (upsertStep st₀ now acc it'), hstep]
      have hq := decide_eq_true h30
      simp only [hq, if_true]
      omega
    · have hstep : upsertStep st₀ now acc it' = acc := by
        simp only [upsertStep]
        rw [if_neg h30]
      rw [ih (upsertStep st₀ now acc it'), hstep]
      have hq := decide_eq_false h30
      simp only [hq, Bool.false_eq_true, if_false]
      omega

theorem opps_setOpps (st : Store) (X : List OppR) :
    (setOpps st X).opportunities = X := rfl

theorem rebuildItems_setOpps (st : Store) (X : List OppR)
    (since upto : Option ℤ) :
    rebuildItems (setOpps st X) since upto = rebuildItems st since upto := rfl

theorem upsertStep_setOpps (st : Store) (X : List OppR) (now : ℤ) :
    upsertStep (setOpps st X) now = upsertStep st now := by
  funext acc item
  simp only [upsertStep]
  rw [calc_congr (FieldsEq_setOpps st X) now item.2.2.2 item.1]

/-- C8: `rebuild_opportunities` is idempotent over an unchanged store
(starting with no opportunity rows, with distinct stored event ids): the
second call leaves every store row unchanged — in particular the same
opportunity set with identical scores — creates nothing, reports exactly
the first call's created + updated total as updates, and records no
errors. -/
theorem C8_rebuild_idempotent (st : Store) (now : ℤ) (since upto : Option ℤ)
    (hops : st.opportunities = []) (hu : EventIdsUnique st) :
    (rebuildOpportunities (rebuildOpportunities st now since upto).1
        now since upto).1 =
      (rebuildOpportunities st now since upto).1 ∧
    (rebuildOpportunities (rebuildOpportunities st now since upto).1
        now since upto).2.created = 0 ∧
    (rebuildOpportunities (rebuildOpportunities st now since upto).1
        now since upto).2.updated =
      (rebuildOpportunities st now since upto).2.created +
        (rebuildOpportunities st now since upto).2.updated ∧
    (rebuildOpportunities (rebuildOpportunities st now since upto).1
        now since upto).2.errors = [] := by
  obtain ⟨ops1, res1, hF1⟩ : ∃ ops1 res1,
      (rebuildItems st since upto).foldl (upsertStep st now)
        (st.opportunities, ({} : RebuildResults)) = (ops1, res1) :=
    ⟨_, _, rfl⟩
  have h1 : rebuildOpportunities st now since upto = (setOpps st ops1, res1) := by
    rw [rebuild_eq_flat, hF1]
  have hR0 : RecWF (st.opportunities, ({} : RebuildResults)).1 := by
    show RecWF st.opportunities
    rw [hops]
    intro o ho
    exact absurd ho (List.not_mem_nil o)
  have hC0 : Coh st now (rebuildItems st since upto)
      (st.opportunities, ({} : RebuildResults)).1 := by
    show Coh st now (rebuildItems st since upto) st.opportunities
    rw [hops]
    intro o ho
    exact absurd ho (List.not_mem_nil o)
  obtain ⟨hR1, hC1, hmono1, hSat1⟩ :=
    run1_fold st now hu (rebuildItems_wf st since upto)
      (rebuildItems st since upto) (fun it h => h)
      (st.opportunities, ({} : RebuildResults)) hR0 hC0
  rw [hF1] at hC1 hSat1
  have hcounts := run1_counts st now (rebuildItems st since upto)
    (st.opportunities, ({} : RebuildResults))
  rw [hF1] at hcounts
  dsimp only at hcounts
  have h2 : rebuildOpportunities (setOpps st ops1) now since upto =
      (setOpps st ops1, { ({} : RebuildResults) with
        updated := ({} : RebuildResults).updated +
          (rebuildItems st since upto).countP (fun it =>
            decide (30 ≤ (calculatePropensityScore st now
              it.2.2.2 it.1).1)) }) := by
    rw [rebuild_eq_flat (setOpps st ops1) now since upto]
    rw [rebuildItems_setOpps st ops1 since upto]
    rw [upsertStep_setOpps st ops1 now]
    rw [opps_setOpps st ops1]
    rw [run2_fold st now ops1 hC1 hSat1 (rebuildItems st since upto)
      (fun it h => h) ({} : RebuildResults)]
    rw [setOpps_setOpps]
  rw [h1]
  dsimp only
  rw [h2]
  dsimp only
  refine ⟨rfl, rfl, ?_, rfl⟩
  omega

theorem C8_witness :
    exStore.opportunities = [] ∧ EventIdsUnique exStore ∧
    ((rebuildOpportunities (rebuildOpportunities exStore 0 none none).1
        0 none none).1 = (rebuildOpportunities exStore 0 none none).1 ∧
      (rebuildOpportunities (rebuildOpportunities exStore 0 none none).1
        0 none none).2.created = 0 ∧
      (rebuildOpportunities (rebuildOpportunities exStore 0 none none).1
        0 none none).2.updated =
        (rebuildOpportunities exStore 0 none none).2.created +
          (rebuildOpportunities exStore 0 none none).2.updated ∧
      (rebuildOpportunities (rebuildOpportunities exStore 0 none none).1
        0 none none).2.errors = []) :=
  ⟨rfl, by unfold EventIdsUnique; decide,
    C8_rebuild_idempotent exStore 0 none none rfl
      (by unfold EventIdsUnique; decide)⟩

end RiskRadar
